import Mathlib

/-!
# Verification of the cmajor audio/MIDI performance harness

A shallow embedding, in Lean 4, of the core logic of:

* `src/include/cmajor/helpers/cmaj_AudioMIDIPerformer.h`
  (`AudioMIDIPerformer` and its `Builder`),
* `src/include/cmajor/helpers/cmaj_FileBasedCacheDatabase.h`
  (`FileBasedCacheDatabase`),
* `src/modules/playback/include/cmaj_RenderingAudioMIDIPlayer.h`
  (`RenderingAudioMIDIPlayer::render`),

together with proofs about block slicing, output-channel routing and
clearing, MIDI output ordering, the event queues, cache round-trips and
cache eviction.

External components (the compiled performer, the type-coercion helper and
the `choc` utility library, whose sources are not part of this slice) are
modelled from the specification's description of their contracts; each such
definition carries a doc comment saying so.  Machine integers are modelled
as `Nat` (none of the verified paths overflow 32/64-bit ranges for the
quantities involved: frame counts are bounded by block sizes and byte
counts by queue capacities).
-/

/-! ## Byte encoding and the variable-size FIFO -/

/-- Modelled from the spec: queue records store the endpoint handle and
other 32-bit fields "native endianness, packed"; we fix a concrete
little-endian 4-byte layout for a 32-bit value. -/
def encodeU32 (n : Nat) : List Nat :=
  [n % 256, n / 256 % 256, n / 65536 % 256, n / 16777216 % 256]

/-- Modelled from the spec: 8-byte layout of a 64-bit value
(the absolute frame counter in outbound event records). -/
def encodeU64 (n : Nat) : List Nat :=
  encodeU32 (n % 4294967296) ++ encodeU32 (n / 4294967296)

/-- Modelled from the spec: `choc::fifo::VariableSizeFIFO` (its source is
not part of this repository slice).  A single-producer/single-consumer
queue of variable-length byte records with a fixed byte capacity;
`push (size, writer)` "atomically reserves `size + header` bytes ...
Returns false if insufficient space (never blocks, never allocates)".
We keep the committed records as a list (FIFO order) plus the capacity. -/
structure ByteQueue where
  capacity : Nat
  records : List (List Nat)
deriving DecidableEq

/-- Modelled from the spec: each record costs its payload size plus a
fixed per-record header. -/
def fifoHeaderSize : Nat := 4

/-- Bytes currently committed in the queue, headers included. -/
def usedBytes (q : ByteQueue) : Nat :=
  (q.records.map (fun r => r.length + fifoHeaderSize)).sum

/-- Modelled from the spec: a push succeeds exactly when the reserved
`size + header` bytes fit in the remaining capacity. -/
def fifoFits (q : ByteQueue) (r : List Nat) : Bool :=
  decide (usedBytes q + (r.length + fifoHeaderSize) ≤ q.capacity)

/-- Modelled from the spec: `push` commits the record and returns true,
or drops it and returns false; it never blocks or retries. -/
def fifoPush (q : ByteQueue) (r : List Nat) : Bool × ByteQueue :=
  if fifoFits q r then (true, ⟨q.capacity, q.records ++ [r]⟩) else (false, q)

/-! ## `AudioMIDIPerformer::postEvent` (control-plane input events)

Embeds `AudioMIDIPerformer::postEvent (EndpointHandle, ValueView)`,
`cmaj_AudioMIDIPerformer.h` lines 504-525.  The coercion helper is an
external component; its outcome is the `coerced` argument: `none` when
`coerceValueToMatchingType` yields no data, otherwise the pair
`(typeIndex, bytes)`. -/
def postEvent (handle : Nat) (coerced : Option (Nat × List Nat)) (q : ByteQueue) :
    Bool × ByteQueue :=
  match coerced with
  | some (typeIndex, bytes) =>
      fifoPush q (encodeU32 handle ++ encodeU32 typeIndex ++ bytes)
  | none => (false, q)

/-! ## Outbound event capture (`moveOutputEventsToQueue`) -/

/-- One event emitted by the performer on an event-output endpoint during a
block, as seen by the `iterateOutputEvents` visitor in
`moveOutputEventsToQueue`: the endpoint handle, the data type index, the
frame offset inside the block, and the value bytes. -/
structure EventOut where
  handle : Nat
  typeIndex : Nat
  frameOffset : Nat
  bytes : List Nat
deriving DecidableEq

/-- Byte layout `[handle | typeIndex | absoluteFrame | bytes]` of an
outbound event record, with `absoluteFrame = numFramesProcessed +
frameOffset`, as written by `moveOutputEventToQueue`
(`cmaj_AudioMIDIPerformer.h` lines 769-789). -/
def outputEventRecord (numFramesProcessed : Nat) (e : EventOut) : List Nat :=
  encodeU32 e.handle ++ encodeU32 e.typeIndex ++
    encodeU64 (numFramesProcessed + e.frameOffset) ++ e.bytes

/-- Embeds `AudioMIDIPerformer::moveOutputEventToQueue`
(`cmaj_AudioMIDIPerformer.h` lines 769-789): assemble the record, push it
onto `outputEventQueue`, and return the push's outcome.  (The
`outputEventDispatcher.trigger()` call only wakes the consumer thread and
has no effect on the queue contents.) -/
def moveOutputEventToQueue (numFramesProcessed : Nat) (q : ByteQueue) (e : EventOut) :
    Bool × ByteQueue :=
  fifoPush q (outputEventRecord numFramesProcessed e)

/-- The `performer.iterateOutputEvents` loop run for one endpoint inside
`moveOutputEventsToQueue` (`cmaj_AudioMIDIPerformer.h` lines 756-767):
the visitor forwards each event to `moveOutputEventToQueue` and the
iteration stops as soon as that returns false.  The performer is an
external component; `events` is the list of events it reports for this
endpoint, in emission order. -/
def iterateEndpointEvents (numFramesProcessed : Nat) (q : ByteQueue) :
    List EventOut → ByteQueue
  | [] => q
  | e :: rest =>
      match moveOutputEventToQueue numFramesProcessed q e with
      | (true, q2) => iterateEndpointEvents numFramesProcessed q2 rest
      | (false, q2) => q2

/-- Embeds `AudioMIDIPerformer::moveOutputEventsToQueue`
(`cmaj_AudioMIDIPerformer.h` lines 756-767): iterate the event-output
endpoints in `eventOutputHandles` order; `endpointEvents` holds, per
endpoint, the events the performer emitted this block.  The function
returns only the updated queue: push failures are not reported to the
caller. -/
def moveOutputEventsToQueue (numFramesProcessed : Nat) (q : ByteQueue)
    (endpointEvents : List (List EventOut)) : ByteQueue :=
  endpointEvents.foldl (iterateEndpointEvents numFramesProcessed) q

/-- The records `iterateEndpointEvents` actually commits: the longest
prefix of the endpoint's events whose pushes all fit, stopping at the
first record that does not fit. -/
def pushedRecords (numFramesProcessed : Nat) (q : ByteQueue) :
    List EventOut → List (List Nat)
  | [] => []
  | e :: rest =>
      let r := outputEventRecord numFramesProcessed e
      if fifoFits q r then
        r :: pushedRecords numFramesProcessed ⟨q.capacity, q.records ++ [r]⟩ rest
      else []

/-! ## `AudioMIDIPerformer::process`: block slicing

Embeds `AudioMIDIPerformer::process` (`cmaj_AudioMIDIPerformer.h` lines
589-691).  The model keeps the control flow of the source — the
performer-null early-out, the splitting loop for oversized blocks with its
recursive `process` calls, and the single-advance body for blocks within
`currentMaxBlockSize` — and abstracts the external performer:

* `base off n` says whether the body of the small-block branch for the
  sub-block `[off, off+n)` runs to completion; `false` models an exception
  thrown during that body (caught at the top level of `process`, which
  then returns false).
* `emit off n` gives, per event-output endpoint, the events the performer
  emits while advancing that sub-block; they are moved onto
  `outputEventQueue` by `moveOutputEventsToQueue`.
* a `SubCall` records one `performer.advance()` call: the absolute frame
  range it covers and the MIDI list passed to that sub-block.
-/

/-- One `performer.advance()` call made by `process`: absolute start
frame, frame count, and the incoming MIDI list the sub-block carried. -/
structure SubCall where
  start : Nat
  numFrames : Nat
  midi : List Nat
deriving DecidableEq

/-- Result of a `process` call: the returned bool, the advance calls made
(in order), and the final `numFramesProcessed` and `outputEventQueue`. -/
structure ProcResult where
  ok : Bool
  advanceCalls : List SubCall
  numFramesProcessed : Nat
  outQueue : ByteQueue
deriving DecidableEq

mutual

/-- Embeds `AudioMIDIPerformer::process` (lines 589-691).  `performerOk`
models `performer != nullptr`; `maxBlock` is `currentMaxBlockSize`;
`off`/`n` are the absolute start frame and frame count of `block`;
`midi` is `block.midiMessages`; `cnt` is `numFramesProcessed` on entry
and `q` the `outputEventQueue` on entry. -/
def process (maxBlock : Nat) (base : Nat → Nat → Bool)
    (emit : Nat → Nat → List (List EventOut)) (performerOk : Bool)
    (off n : Nat) (midi : List Nat) (cnt : Nat) (q : ByteQueue) : ProcResult :=
  if performerOk then
    if n > maxBlock then
      processLoop maxBlock base emit performerOk off n midi 0 cnt q
    else
      -- the small-block body: setBlockSize, preRender closures, queue
      -- drains, MIDI input, advance(), MIDI output dispatch, post-render
      -- closures, moveOutputEventsToQueue(), numFramesProcessed += n.
      if base off n then
        ⟨true, [⟨off, n, midi⟩], cnt + n, moveOutputEventsToQueue cnt q (emit off n)⟩
      else
        ⟨false, [⟨off, n, midi⟩], cnt, q⟩
  else ⟨false, [], cnt, q⟩
termination_by (n, n + 2)

/-- The splitting loop of `process` (lines 600-613): walk `start` over
`[0, n)` in steps of `min maxBlock (n - start)`, recursing into `process`
for each sub-block; only the `start = 0` sub-block carries the MIDI list;
abort on the first failing sub-block.  The two inner guards cannot fail
when the loop is entered from `process` (there `maxBlock < n` and, for a
terminating source program, `0 < maxBlock`); they make the recursion
well-founded for all arguments. -/
def processLoop (maxBlock : Nat) (base : Nat → Nat → Bool)
    (emit : Nat → Nat → List (List EventOut)) (performerOk : Bool)
    (off n : Nat) (midi : List Nat) (start cnt : Nat) (q : ByteQueue) : ProcResult :=
  if hs : start < n then
    let numToDo := min maxBlock (n - start)
    if h1 : 0 < numToDo then
      if h2 : numToDo < n then
        let r := process maxBlock base emit performerOk (off + start) numToDo
                   (if start = 0 then midi else []) cnt q
        if r.ok then
          let r2 := processLoop maxBlock base emit performerOk off n midi
                      (start + numToDo) r.numFramesProcessed r.outQueue
          ⟨r2.ok, r.advanceCalls ++ r2.advanceCalls, r2.numFramesProcessed, r2.outQueue⟩
        else ⟨false, r.advanceCalls, r.numFramesProcessed, r.outQueue⟩
      else ⟨true, [], cnt, q⟩
    else ⟨true, [], cnt, q⟩
  else ⟨true, [], cnt, q⟩
termination_by (n, n - start + 1)

end

/-- The frame partition `process` uses for a block of `n` frames starting
at absolute frame `off`: the contiguous `(start, length)` sub-blocks of at
most `maxBlock` frames produced by the splitting loop. -/
def chunksFrom (maxBlock : Nat) (off rem : Nat) : List (Nat × Nat) :=
  if h : rem = 0 then []
  else
    let c := min maxBlock rem
    if h1 : c = 0 then []
    else (off, c) :: chunksFrom maxBlock (off + c) (rem - c)
termination_by rem
decreasing_by omega

/-- The advance partition of a whole block: a single sub-block when
`n ≤ maxBlock`, the loop's chunks otherwise. -/
def blockChunks (maxBlock : Nat) (off n : Nat) : List (Nat × Nat) :=
  if n > maxBlock then chunksFrom maxBlock off n else [(off, n)]

/-- All sub-blocks of the partition complete without an exception. -/
def allOk (base : Nat → Nat → Bool) (cs : List (Nat × Nat)) : Bool :=
  cs.all (fun c => base c.1 c.2)

/-- The advance calls `process` makes on a partition: every sub-block up
to and including the first failing one; the sub-block starting at the
block origin `off` carries the MIDI list, all others an empty list. -/
def callsThrough (off : Nat) (midi : List Nat) (base : Nat → Nat → Bool) :
    List (Nat × Nat) → List SubCall
  | [] => []
  | c :: t =>
      let sc : SubCall := ⟨c.1, c.2, if c.1 = off then midi else []⟩
      if base c.1 c.2 then sc :: callsThrough off midi base t else [sc]

/-- Frames added to `numFramesProcessed`: the lengths of the successful
sub-blocks before the first failure. -/
def framesDone (base : Nat → Nat → Bool) : List (Nat × Nat) → Nat
  | [] => 0
  | c :: t => if base c.1 c.2 then c.2 + framesDone base t else 0

/-- The `outputEventQueue` after processing a partition: each successful
sub-block moves its emitted events onto the queue, stamped with the
frame counter current at that sub-block. -/
def queueThrough (base : Nat → Nat → Bool)
    (emit : Nat → Nat → List (List EventOut)) :
    Nat → ByteQueue → List (Nat × Nat) → ByteQueue
  | _, q, [] => q
  | cnt, q, c :: t =>
      if base c.1 c.2 then
        queueThrough base emit (cnt + c.2)
          (moveOutputEventsToQueue cnt q (emit c.1 c.2)) t
      else q

/-! ## MIDI output dispatch (`dispatchMIDIOutputEvents`) -/

/-- Modelled from the spec: `choc::sorting::stable_sort` (its source is not
part of this repository slice); the spec requires a stable sort "by
`frameOffset` ascending ... preserving intra-endpoint order".  A stable
insertion by key: the new element is placed after every element whose key
is less than or equal to its own. -/
def sInsertByKey {α : Type} (key : α → Nat) (x : α) : List α → List α
  | [] => [x]
  | y :: t => if key y ≤ key x then y :: sInsertByKey key x t else x :: y :: t

/-- Modelled from the spec: stable sort by a natural-number key, as a left
fold of stable insertions (elements are inserted in input order, each after
all its key-equals). -/
def sortByKey {α : Type} (key : α → Nat) (l : List α) : List α :=
  l.foldl (fun acc x => sInsertByKey key x acc) []

/-- Embeds `AudioMIDIPerformer::dispatchMIDIOutputEvents`
(`cmaj_AudioMIDIPerformer.h` lines 693-723).  `hasCallback` models
`block.onMidiOutputMessage != nullptr`; `endpointEvents` holds the
`(packed message, frameOffset)` pairs each MIDI output endpoint emits, in
`midiOutputEndpoints` registration order and, per endpoint, in emission
order (the visitor always returns true, so every event is collected).
The result is the ordered list of `(message, frameOffset)` deliveries made
through `block.onMidiOutputMessage`; an absent callback short-circuits the
whole function. -/
def dispatchMIDIOutputEvents (hasCallback : Bool)
    (endpointEvents : List (List (Nat × Nat))) : List (Nat × Nat) :=
  if hasCallback then
    let collected := endpointEvents.flatten
    if collected.isEmpty then []
    else sortByKey Prod.snd collected
  else []

/-! ## Audio output routing: the builder's classification and closures

Embeds `AudioMIDIPerformer::Builder::addOutputCopyFunction`
(`cmaj_AudioMIDIPerformer.h` lines 287-397) and
`Builder::createOutputChannelClearAction` (lines 236-285).

The host output buffer is modelled as a channel count plus a total
`channel → frame → sample` map; samples are `Int` (the claims under study
concern which channels are written, duplicated, accumulated or cleared,
not float rounding). -/

/-- A host-side audio buffer: `choc::buffer` channel-array view. -/
structure Buffer where
  numChannels : Nat
  data : Nat → Nat → Int

/-- Modelled from the spec: `choc` channel clear — the channel's samples
become zero. -/
def clearChannel (b : Buffer) (c : Nat) : Buffer :=
  ⟨b.numChannels, fun ch f => if ch = c then 0 else b.data ch f⟩

/-- Modelled from the spec: `getChannelRange({lo, hi}).clear()` — channels
`lo ≤ ch < hi` become zero. -/
def clearChannelRange (b : Buffer) (lo hi : Nat) : Buffer :=
  ⟨b.numChannels, fun ch f => if lo ≤ ch ∧ ch < hi then 0 else b.data ch f⟩

/-- Modelled from the spec: `audioOutput.clear()` — every channel of the
buffer becomes zero. -/
def clearAllChannels (b : Buffer) : Buffer :=
  clearChannelRange b 0 b.numChannels

/-- Modelled from the spec: `copy (dest.getChannel c, source)` — channel
`c` is overwritten with the source samples. -/
def copyToChannel (b : Buffer) (c : Nat) (src : Nat → Int) : Buffer :=
  ⟨b.numChannels, fun ch f => if ch = c then src f else b.data ch f⟩

/-- Modelled from the spec: `add (dest.getChannel c, source)` — the source
samples are accumulated onto channel `c`. -/
def addToChannel (b : Buffer) (c : Nat) (src : Nat → Int) : Buffer :=
  ⟨b.numChannels, fun ch f => if ch = c then b.data ch f + src f else b.data ch f⟩

/-- One audio output connection, as passed to `addOutputCopyFunction`:
the endpoint's channel count, the parallel `endpointChannels` /
`outputChannels` arrays, and the samples the performer writes for this
endpoint (`performer.copyOutputFrames`, an external component:
`endpointOut ch f` is endpoint channel `ch` at frame `f`). -/
structure AudioOutConnection where
  numChannelsInEndpoint : Nat
  endpointChannels : List Nat
  outputChannels : List Nat
  endpointOut : Nat → Nat → Int

/-- The `(source, dest)` channel mappings of a connection — the `ChannelMap`
entries built by the loop in `addOutputCopyFunction`. -/
def mapsOf (c : AudioOutConnection) : List (Nat × Nat) :=
  c.endpointChannels.zip c.outputChannels

/-- Whether a connection maps some endpoint channel onto host channel `d`. -/
def mapsToDest (c : AudioOutConnection) (d : Nat) : Bool :=
  (mapsOf c).any (fun m => m.2 == d)

/-- The classification loop of `addOutputCopyFunction` (lines 305-324):
for each `(src, dest)` mapping, grow `audioOutputChannelsUsed` to cover
`dest`, then classify the mapping as add (destination already used) or
overwrite (fresh destination, which is then marked used).  Returns
`(channelsToOverwrite, channelsToAddTo, updated used vector)`. -/
def classifyMappings (used : List Bool) :
    List (Nat × Nat) → List (Nat × Nat) × List (Nat × Nat) × List Bool
  | [] => ([], [], used)
  | m :: rest =>
      let used1 := if used.length ≤ m.2
                   then used ++ List.replicate (m.2 + 1 - used.length) false
                   else used
      if used1.getD m.2 false then
        let r := classifyMappings used1 rest
        (r.1, m :: r.2.1, r.2.2)
      else
        let r := classifyMappings (used1.set m.2 true) rest
        (m :: r.1, r.2.1, r.2.2)

/-- The `postRenderReplaceFunctions` closure pushed by
`addOutputCopyFunction` for one connection (lines 343-396), acting on the
host output buffer.  Three paths, as in the source:

* mono endpoint and no add-mappings, a single overwrite destination:
  `copyOutputFrames` straight into that channel (no bounds check in the
  source);
* mono endpoint and no add-mappings, several overwrite destinations:
  write the first in-range destination, then copy that host channel onto
  the other in-range destinations;
* otherwise: `copyOutputFrames` into scratch, overwrite the
  `channelsToOverwrite` destinations, then accumulate onto the
  `channelsToAddTo` destinations. -/
def connReplaceClosure (conn : AudioOutConnection) (ov ad : List (Nat × Nat))
    (blk : Buffer) : Buffer :=
  if conn.numChannelsInEndpoint = 1 ∧ ad = [] then
    match ov with
    | [] => blk      -- unreachable: `addOutputCopyFunction` pushes no
                     -- closure for a connection with no mappings
    | [m] => copyToChannel blk m.2 (conn.endpointOut 0)
    | first :: others =>
        if first.2 < blk.numChannels then
          let b1 := copyToChannel blk first.2 (conn.endpointOut 0)
          others.foldl
            (fun b c => if c.2 < b.numChannels
                        then copyToChannel b c.2 (b.data first.2) else b) b1
        else blk
  else
    let b1 := ov.foldl (fun b c => copyToChannel b c.2 (conn.endpointOut c.1)) blk
    ad.foldl (fun b c => addToChannel b c.2 (conn.endpointOut c.1)) b1

/-- A frozen routing entry: the connection plus its classification, the
data captured by the closures `addOutputCopyFunction` pushes. -/
structure ConnPlan where
  conn : AudioOutConnection
  ov : List (Nat × Nat)
  ad : List (Nat × Nat)

/-- Embeds one `Builder::addOutputCopyFunction` call (lines 287-397):
skip a connection with no mappings, otherwise classify its mappings
against the current `audioOutputChannelsUsed` vector and append the
frozen plan.  The state is `(audioOutputChannelsUsed, plans so far)`. -/
def addOutputCopyFunction (st : List Bool × List ConnPlan)
    (conn : AudioOutConnection) : List Bool × List ConnPlan :=
  let maps := mapsOf conn
  if maps.isEmpty then st
  else
    let r := classifyMappings st.1 maps
    (r.2.2, st.2 ++ [⟨conn, r.1, r.2.1⟩])

/-- The builder state after registering a list of audio output
connections, starting from the constructor's all-false used vector of
length `initChans = countTotalAudioChannels (engine outputs)`
(`cmaj_AudioMIDIPerformer.h` line 203). -/
def buildOutputConnections (initChans : Nat) (conns : List AudioOutConnection) :
    List Bool × List ConnPlan :=
  conns.foldl addOutputCopyFunction (List.replicate initChans false, [])

/-- The `highestUsedChannel` computation of
`createOutputChannelClearAction` (lines 238-242): one past the last used
index, 0 when nothing is used. -/
def highestUsedChannel (used : List Bool) : Nat :=
  (List.range used.length).foldl
    (fun h i => if used.getD i false then i + 1 else h) 0

/-- The `channelsToClear` vector (lines 253-257): the unused channel
indices below `highestUsedChannel`. -/
def channelsToClearList (used : List Bool) : List Nat :=
  (List.range (highestUsedChannel used)).filter (fun i => !(used.getD i false))

/-- Embeds the closure appended by
`Builder::createOutputChannelClearAction` (lines 236-285): clear the whole
output when nothing is used; otherwise clear each unused channel below the
highest used index, and all channels from the highest used index up to the
buffer's channel count. -/
def outputChannelClearAction (used : List Bool) (blk : Buffer) : Buffer :=
  let h := highestUsedChannel used
  if h = 0 then clearAllChannels blk
  else
    let toClear := channelsToClearList used
    if toClear.isEmpty then
      if h < blk.numChannels then clearChannelRange blk h blk.numChannels else blk
    else
      let b1 := toClear.foldl (fun b c => clearChannel b c) blk
      if h < b1.numChannels then clearChannelRange b1 h b1.numChannels else b1

/-- The replace-mode output pass without the final clear action: the
`postRenderReplaceFunctions` pushed by the connections, run in
registration order. -/
def runOutputConnections (initChans : Nat) (conns : List AudioOutConnection)
    (b : Buffer) : Buffer :=
  ((buildOutputConnections initChans conns).2).foldl
    (fun bb p => connReplaceClosure p.conn p.ov p.ad bb) b

/-- The full replace-mode output pass run by
`process (block, replaceOutput = true)` on a performer built by
`createPerformer()`: the connections' replace closures in registration
order, then the clear action `createPerformer` appended last
(lines 459-463). -/
def runReplacePipeline (initChans : Nat) (conns : List AudioOutConnection)
    (b : Buffer) : Buffer :=
  outputChannelClearAction (buildOutputConnections initChans conns).1
    (runOutputConnections initChans conns b)

/-! ## `FileBasedCacheDatabase`

Embeds `cmaj_FileBasedCacheDatabase.h`.  The filesystem is modelled as a
map from file names (byte lists) to optional contents for `store`/`reload`,
and as a directory listing with modification times for the purge worker.
Keys and file names are byte lists; `46` is the byte of `'.'`. -/

/-- The `"cmajor_cache_"` prefix returned by `getFileNamePrefix()`
(`cmaj_FileBasedCacheDatabase.h` line 95), as bytes. -/
def cacheNameStart : List Nat :=
  [99, 109, 97, 106, 111, 114, 95, 99, 97, 99, 104, 101, 95]

/-- Embeds `getCacheFile` (line 97): the cache file for a key is the
prefix followed by the key (the folder is fixed and elided). -/
def cacheFileName (key : List Nat) : List Nat := cacheNameStart ++ key

/-- Embeds `FileBasedCacheDatabase::store` (lines 42-54) on the success
path: `replaceFileWithContent` replaces the file's bytes atomically.
(I/O exceptions are swallowed and leave the map unchanged; the purge
trigger only wakes the worker thread.) -/
def store (fs : List Nat → Option (List Nat)) (key data : List Nat) :
    List Nat → Option (List Nat) :=
  fun f => if f = cacheFileName key then some data else fs f

/-- Embeds `FileBasedCacheDatabase::reload` (lines 56-87).  `fs` is the
filesystem; a missing file makes `file_size` throw, which the function
turns into a 0 return.  `destNull` models `destAddress == nullptr`.
`readBytes` gives the bytes the `fstream` read actually delivers for a
given file content (it equals the content unless the file changes
concurrently mid-read); a short read fails the `gcount()` check and
returns 0.  Result: the returned size and the bytes written into `dest`
(`none` when nothing is written). -/
def reload (fs : List Nat → Option (List Nat)) (key : List Nat)
    (destNull : Bool) (destSize : Nat) (readBytes : List Nat → List Nat) :
    Nat × Option (List Nat) :=
  match fs (cacheFileName key) with
  | none => (0, none)
  | some content =>
      if content.length = 0 then (0, none)
      else if destNull || decide (destSize < content.length) then
        (content.length, none)
      else
        let r := readBytes content
        if r.length ≠ content.length then (0, some r)
        else (content.length, some r)

/-- One directory entry seen by the purge worker: a file name and its
modification time. -/
structure FolderEntry where
  name : List Nat
  mtime : Nat
deriving DecidableEq

/-- Modelled from the spec: `std::filesystem::path::stem()` — the file
name without its final extension (the part before the last `'.'`); a name
with no dot is its own stem.  (The `std` special cases for names that are
all extension do not arise for cache-prefixed names.) -/
def fileStem (nm : List Nat) : List Nat :=
  if (46 : Nat) ∈ nm then (((nm.reverse).dropWhile (fun b => !(b == 46))).drop 1).reverse
  else nm

/-- The purge worker's selection test (line 115): the file's stem starts
with `"cmajor_cache_"`. -/
def isCacheFile (f : FolderEntry) : Bool :=
  cacheNameStart.isPrefixOf (fileStem f.name)

/-- Embeds `FileBasedCacheDatabase::removeOldFiles` (lines 99-139):
collect the entries whose stem starts with the cache prefix, sort them by
modification time ascending (the source uses `std::sort`; `sortByKey`
computes the same list whenever the collected mtimes are distinct, which
the eviction claims assume), and when the count exceeds `maxNumFiles`
delete the oldest `count - maxNumFiles` of them from the folder. -/
def removeOldFiles (maxNumFiles : Nat) (folder : List FolderEntry) :
    List FolderEntry :=
  let files := folder.filter isCacheFile
  let sorted := sortByKey FolderEntry.mtime files
  if sorted.length > maxNumFiles then
    let toDelete := sorted.take (sorted.length - maxNumFiles)
    folder.filter (fun f => !(toDelete.any (fun g => g.name == f.name)))
  else folder

/-! ## `RenderingAudioMIDIPlayer::render`: MIDI-aware sub-blocking

Embeds the per-block part of `RenderingAudioMIDIPlayer::render`
(`cmaj_RenderingAudioMIDIPlayer.h` lines 134-171).  A MIDI message and its
time are one pair (the source keeps the two parallel vectors
`midiMessages` / `midiMessageTimes`, asserted to have equal length). -/

/-- One iteration of the sub-blocking loop: the MIDI messages delivered
through `callback->addIncomingMIDIEvent` just before the segment's
`process` call, the segment's frame range, and the `replaceOutput` flag
passed to `callback->process`. -/
structure RenderStep where
  delivered : List (Nat × Nat)
  segStart : Nat
  segEnd : Nat
  replaceOutput : Bool
deriving DecidableEq

/-- The `while (frameRange.start < frameRange.end)` loop (lines 139-166):
scan the pending MIDI list past every event whose time is at or before the
segment start (those are delivered before the `process` call); the first
later event's time, if any, caps the segment, otherwise the segment runs
to the block end. -/
def renderLoop (blockSize : Nat) (start : Nat) (msgs : List (Nat × Nat)) :
    List RenderStep :=
  if start < blockSize then
    let deliver := msgs.takeWhile (fun m => m.2 ≤ start)
    let rest := msgs.dropWhile (fun m => m.2 ≤ start)
    if hrest : rest = [] then [⟨deliver, start, blockSize, true⟩]
    else
      let t := (rest.head hrest).2
      ⟨deliver, start, t, true⟩ :: renderLoop blockSize t rest
  else []
termination_by blockSize - start
decreasing_by
  have hx := List.head_dropWhile_not (fun m : Nat × Nat => decide (m.2 ≤ start)) msgs hrest
  simp only [decide_eq_false_iff_not, Nat.not_le] at hx
  omega

/-- One render-loop iteration of `render` (lines 134-171): with a
non-empty MIDI list the MIDI-aware sub-blocking loop runs from frame 0;
with no MIDI the whole block is processed in one `process (…, true)`
call. -/
def render (blockSize : Nat) (msgs : List (Nat × Nat)) : List RenderStep :=
  if msgs.length ≠ 0 then renderLoop blockSize 0 msgs
  else [⟨[], 0, blockSize, true⟩]

/-! ## Lemmas: stable sort by key -/

lemma mem_sInsertByKey {α : Type} (key : α → Nat) (x z : α) :
    ∀ l : List α, z ∈ sInsertByKey key x l ↔ z = x ∨ z ∈ l := by
  intro l
  induction l with
  | nil => simp [sInsertByKey]
  | cons y t ih =>
    simp only [sInsertByKey]
    by_cases h : key y ≤ key x
    · simp only [if_pos h, List.mem_cons, ih]
      tauto
    · rw [if_neg h]
      simp [List.mem_cons]

lemma sorted_sInsertByKey {α : Type} (key : α → Nat) (x : α) :
    ∀ l : List α, l.Pairwise (fun a b => key a ≤ key b) →
      (sInsertByKey key x l).Pairwise (fun a b => key a ≤ key b) := by
  intro l hl
  induction l with
  | nil => simp [sInsertByKey]
  | cons y t ih =>
    rw [List.pairwise_cons] at hl
    obtain ⟨hy, ht⟩ := hl
    simp only [sInsertByKey]
    by_cases h : key y ≤ key x
    · rw [if_pos h, List.pairwise_cons]
      refine ⟨fun z hz => ?_, ih ht⟩
      rcases (mem_sInsertByKey key x z t).mp hz with rfl | hz
      · exact h
      · exact hy z hz
    · rw [if_neg h, List.pairwise_cons]
      push_neg at h
      refine ⟨fun z hz => ?_, List.pairwise_cons.mpr ⟨hy, ht⟩⟩
      rcases List.mem_cons.mp hz with rfl | hz
      · exact Nat.le_of_lt h
      · exact Nat.le_of_lt (Nat.lt_of_lt_of_le h (hy z hz))

lemma filter_sInsertByKey {α : Type} (key : α → Nat) (x : α) (t0 : Nat) :
    ∀ l : List α, l.Pairwise (fun a b => key a ≤ key b) →
      (sInsertByKey key x l).filter (fun z => key z == t0)
        = l.filter (fun z => key z == t0)
            ++ (if key x == t0 then [x] else []) := by
  intro l hl
  induction l with
  | nil =>
    by_cases hx : (key x == t0) = true
    · simp [sInsertByKey, List.filter_cons, hx]
    · simp [sInsertByKey, List.filter_cons, hx]
  | cons y t ih =>
    rw [List.pairwise_cons] at hl
    obtain ⟨hy, ht⟩ := hl
    simp only [sInsertByKey]
    by_cases h : key y ≤ key x
    · rw [if_pos h]
      rw [List.filter_cons, List.filter_cons]
      by_cases hmatch : (key y == t0) = true
      · simp [hmatch, ih ht]
      · simp [hmatch, ih ht]
    · rw [if_neg h]
      push_neg at h
      rw [List.filter_cons]
      by_cases hx : (key x == t0) = true
      · have hxeq : key x = t0 := by simpa using hx
        have hnil : (y :: t).filter (fun z => key z == t0) = [] := by
          rw [List.filter_eq_nil_iff]
          intro z hz
          have hlt : key x < key z := by
            rcases List.mem_cons.mp hz with rfl | hz
            · exact h
            · exact Nat.lt_of_lt_of_le h (hy z hz)
          simp only [beq_iff_eq]
          omega
        simp [hx, hnil]
      · simp [hx]

lemma sorted_foldl_sInsert {α : Type} (key : α → Nat) :
    ∀ (l acc : List α), acc.Pairwise (fun a b => key a ≤ key b) →
      (l.foldl (fun a x => sInsertByKey key x a) acc).Pairwise
        (fun a b => key a ≤ key b) := by
  intro l
  induction l with
  | nil => intro acc h; exact h
  | cons x t ih =>
    intro acc h
    exact ih _ (sorted_sInsertByKey key x acc h)

lemma filter_foldl_sInsert {α : Type} (key : α → Nat) (t0 : Nat) :
    ∀ (l acc : List α), acc.Pairwise (fun a b => key a ≤ key b) →
      (l.foldl (fun a x => sInsertByKey key x a) acc).filter (fun z => key z == t0)
        = acc.filter (fun z => key z == t0) ++ l.filter (fun z => key z == t0) := by
  intro l
  induction l with
  | nil => intro acc h; simp
  | cons x t ih =>
    intro acc h
    simp only [List.foldl_cons]
    rw [ih _ (sorted_sInsertByKey key x acc h), filter_sInsertByKey key x t0 acc h,
        List.filter_cons]
    by_cases hx : (key x == t0) = true
    · simp [hx]
    · simp [hx]

lemma sorted_sortByKey {α : Type} (key : α → Nat) (l : List α) :
    (sortByKey key l).Pairwise (fun a b => key a ≤ key b) :=
  sorted_foldl_sInsert key l [] (List.Pairwise.nil)

lemma filter_sortByKey {α : Type} (key : α → Nat) (t0 : Nat) (l : List α) :
    (sortByKey key l).filter (fun z => key z == t0)
      = l.filter (fun z => key z == t0) := by
  have := filter_foldl_sInsert key t0 l [] (List.Pairwise.nil)
  simpa [sortByKey] using this

lemma perm_sInsertByKey {α : Type} (key : α → Nat) (x : α) :
    ∀ l : List α, (sInsertByKey key x l).Perm (x :: l) := by
  intro l
  induction l with
  | nil => simp [sInsertByKey]
  | cons y t ih =>
    simp only [sInsertByKey]
    by_cases h : key y ≤ key x
    · rw [if_pos h]
      exact (ih.cons y).trans (List.Perm.swap x y t)
    · rw [if_neg h]

lemma perm_foldl_sInsert {α : Type} (key : α → Nat) :
    ∀ (l acc : List α),
      (l.foldl (fun a x => sInsertByKey key x a) acc).Perm (acc ++ l) := by
  intro l
  induction l with
  | nil => intro acc; simp
  | cons x t ih =>
    intro acc
    simp only [List.foldl_cons]
    refine (ih (sInsertByKey key x acc)).trans ?_
    refine (List.Perm.append_right t (perm_sInsertByKey key x acc)).trans ?_
    exact List.perm_middle.symm.trans (by simp)

lemma perm_sortByKey {α : Type} (key : α → Nat) (l : List α) :
    (sortByKey key l).Perm l := by
  have := perm_foldl_sInsert key l []
  simpa [sortByKey] using this

/-! ## Claim C4: MIDI output ordering -/

/-- C4: with an `onMidiOutputMessage` callback present, the messages
delivered during one process sub-block are non-decreasing in
`frameOffset`, and messages with equal `frameOffset` keep the order in
which they were collected (endpoints in registration order, each
endpoint's events in emission order — i.e. the order of
`endpointEvents.flatten`); with no callback, no MIDI output dispatch
happens at all. -/
theorem claim_C4 (endpointEvents : List (List (Nat × Nat))) :
    (dispatchMIDIOutputEvents true endpointEvents).Pairwise
      (fun a b => a.2 ≤ b.2)
    ∧ (∀ t0, (dispatchMIDIOutputEvents true endpointEvents).filter
          (fun m => m.2 == t0)
        = (endpointEvents.flatten).filter (fun m => m.2 == t0))
    ∧ dispatchMIDIOutputEvents false endpointEvents = [] := by
  refine ⟨?_, ?_, rfl⟩
  · unfold dispatchMIDIOutputEvents
    by_cases hE : (endpointEvents.flatten).isEmpty
    · simp [hE]
    · simp only [if_true, hE, Bool.false_eq_true, if_false]
      exact sorted_sortByKey Prod.snd _
  · intro t0
    unfold dispatchMIDIOutputEvents
    by_cases hE : (endpointEvents.flatten).isEmpty
    · rw [List.isEmpty_iff] at hE
      simp [hE]
    · simp only [if_true, hE, Bool.false_eq_true, if_false]
      exact filter_sortByKey Prod.snd t0 _

/-! ## Claim C5: `postEvent` error handling -/

/-- C5: when the coercion helper yields no data, `postEvent` pushes
nothing and returns false; otherwise it pushes exactly one
`[handle | typeIndex | bytes]` record onto `eventQueue` and returns the
push's outcome — in particular, with insufficient queue space it returns
false and the post is dropped, leaving the queue unchanged. -/
theorem claim_C5 (handle typeIndex : Nat) (bytes : List Nat) (q : ByteQueue) :
    postEvent handle none q = (false, q)
    ∧ (postEvent handle (some (typeIndex, bytes)) q).1
        = fifoFits q (encodeU32 handle ++ encodeU32 typeIndex ++ bytes)
    ∧ (fifoFits q (encodeU32 handle ++ encodeU32 typeIndex ++ bytes) = true →
        postEvent handle (some (typeIndex, bytes)) q
          = (true, ⟨q.capacity,
              q.records ++ [encodeU32 handle ++ encodeU32 typeIndex ++ bytes]⟩))
    ∧ (fifoFits q (encodeU32 handle ++ encodeU32 typeIndex ++ bytes) = false →
        postEvent handle (some (typeIndex, bytes)) q = (false, q)) := by
  have hpe : postEvent handle (some (typeIndex, bytes)) q
      = fifoPush q (encodeU32 handle ++ encodeU32 typeIndex ++ bytes) := rfl
  by_cases hf : fifoFits q (encodeU32 handle ++ encodeU32 typeIndex ++ bytes) = true
  · refine ⟨rfl, ?_, fun _ => ?_, fun hc => ?_⟩
    · rw [hpe, fifoPush, if_pos hf, hf]
    · rw [hpe, fifoPush, if_pos hf]
    · rw [hf] at hc; cases hc
  · have hf2 : fifoFits q (encodeU32 handle ++ encodeU32 typeIndex ++ bytes) = false := by
      simpa using hf
    refine ⟨rfl, ?_, fun hc => absurd hc hf, fun _ => ?_⟩
    · rw [hpe, fifoPush, if_neg hf, hf2]
    · rw [hpe, fifoPush, if_neg hf]

/-- Witness for C5: a concrete successful post (record appended, true
returned) and a concrete overflowing post (queue unchanged, false
returned). -/
theorem claim_C5_witness :
    postEvent 5 (some (2, [9])) ⟨32, []⟩
      = (true, ⟨32, [] ++ [encodeU32 5 ++ encodeU32 2 ++ [9]]⟩)
    ∧ postEvent 5 (some (2, [9])) ⟨4, []⟩ = (false, ⟨4, []⟩) :=
  ⟨(claim_C5 5 2 [9] ⟨32, []⟩).2.2.1 (by decide),
   (claim_C5 5 2 [9] ⟨4, []⟩).2.2.2 (by decide)⟩

/-! ## Claim C7: cache `reload` behaviour and round-trip -/

lemma store_self (fs : List Nat → Option (List Nat)) (k v : List Nat) :
    store fs k v (cacheFileName k) = some v := by
  simp [store]

lemma store_other (fs : List Nat → Option (List Nat)) (k k2 v : List Nat)
    (h : k2 ≠ k) : store fs k2 v (cacheFileName k) = fs (cacheFileName k) := by
  have hne : cacheFileName k ≠ cacheFileName k2 := by
    intro he
    exact h (List.append_cancel_left he.symm)
  simp [store, hne]

/-- C7: `reload` returns 0 for a missing or empty file or when the stream
read comes up short; it returns the file size writing nothing when the
destination is null or too small; otherwise it reads exactly the file's
bytes and returns the size.  Consequently, after `store k v`:
`reload k buf |v| = |v|` with `buf = v`, `reload k nullptr 0 = |v|`, and a
`store` under a different key leaves `k`'s file — hence an unknown key's
miss — untouched. -/
theorem claim_C7 (fs : List Nat → Option (List Nat)) (k k2 v : List Nat)
    (destSize : Nat) (rb : List Nat → List Nat) :
    (fs (cacheFileName k) = none → reload fs k false destSize rb = (0, none))
    ∧ (∀ c, fs (cacheFileName k) = some c → c.length = 0 →
        reload fs k false destSize rb = (0, none))
    ∧ (∀ c, fs (cacheFileName k) = some c → c ≠ [] →
        reload fs k true destSize rb = (c.length, none))
    ∧ (∀ c, fs (cacheFileName k) = some c → destSize < c.length →
        reload fs k false destSize rb = (c.length, none))
    ∧ (∀ c, fs (cacheFileName k) = some c → c ≠ [] → ¬ destSize < c.length →
        (rb c).length ≠ c.length → (reload fs k false destSize rb).1 = 0)
    ∧ (∀ c, fs (cacheFileName k) = some c → c ≠ [] → ¬ destSize < c.length →
        rb c = c → reload fs k false destSize rb = (c.length, some c))
    ∧ (reload (store fs k v) k false v.length (fun c => c)).1 = v.length
    ∧ (v ≠ [] →
        reload (store fs k v) k false v.length (fun c => c) = (v.length, some v))
    ∧ (reload (store fs k v) k true 0 rb).1 = v.length
    ∧ (k2 ≠ k → store fs k2 v (cacheFileName k) = fs (cacheFileName k)) := by
  refine ⟨?_, ?_, ?_, ?_, ?_, ?_, ?_, ?_, ?_, fun h => store_other fs k k2 v h⟩
  · intro h; simp [reload, h]
  · intro c hc hlen
    simp [reload, hc, hlen]
  · intro c hc hne
    have hlen : c.length ≠ 0 := by simpa using hne
    simp [reload, hc, hlen]
  · intro c hc hlt
    have hlen : c.length ≠ 0 := by omega
    simp [reload, hc, hlen, hlt]
  · intro c hc hne hnlt hshort
    have hlen : c.length ≠ 0 := by simpa using hne
    simp [reload, hc, hlen, hnlt, hshort]
  · intro c hc hne hnlt hread
    have hlen : c.length ≠ 0 := by simpa using hne
    simp [reload, hc, hlen, hnlt, hread]
  · by_cases hv : v = []
    · subst hv
      simp [reload, store_self fs k []]
    · have hlen : v.length ≠ 0 := by simpa using hv
      simp [reload, store_self fs k v, hlen]
  · intro hv
    have hlen : v.length ≠ 0 := by simpa using hv
    simp [reload, store_self fs k v, hlen]
  · by_cases hv : v = []
    · subst hv
      simp [reload, store_self fs k []]
    · have hlen : v.length ≠ 0 := by simpa using hv
      simp [reload, store_self fs k v, hlen]

/-- Witness for C7: a concrete store/reload round trip, size query, and
unknown-key miss. -/
theorem claim_C7_witness :
    reload (store (fun _ => none) [1] [7, 8]) [1] false 2 (fun c => c)
      = (2, some [7, 8])
    ∧ (reload (store (fun _ => none) [1] [7, 8]) [1] true 0 (fun c => c)).1 = 2
    ∧ reload (fun _ => none) [2] false 4 (fun c => c) = (0, none)
    ∧ store (fun _ => none) [3] [9] (cacheFileName [2]) = none :=
  ⟨(claim_C7 (fun _ => none) [1] [1] [7, 8] 2 (fun c => c)).2.2.2.2.2.2.2.1
      (by decide),
   (claim_C7 (fun _ => none) [1] [1] [7, 8] 0 (fun c => c)).2.2.2.2.2.2.2.2.1,
   (claim_C7 (fun _ => none) [2] [2] [] 4 (fun c => c)).1 rfl,
   (claim_C7 (fun _ => none) [2] [3] [9] 4 (fun c => c)).2.2.2.2.2.2.2.2.2
      (by decide)⟩

/-! ## Lemmas: the block partition and the `process` recursion -/

lemma chunksFrom_nil (maxBlock off : Nat) : chunksFrom maxBlock off 0 = [] := by
  unfold chunksFrom
  simp

lemma chunksFrom_cons (maxBlock off rem : Nat) (hmax : 0 < maxBlock)
    (hrem : 0 < rem) :
    chunksFrom maxBlock off rem
      = (off, min maxBlock rem)
          :: chunksFrom maxBlock (off + min maxBlock rem) (rem - min maxBlock rem) := by
  rw [chunksFrom]
  have h1 : ¬ rem = 0 := by omega
  have h2 : ¬ (min maxBlock rem = 0) := by omega
  simp [h1, h2]

lemma chunksFrom_sum (maxBlock : Nat) (hmax : 0 < maxBlock) :
    ∀ rem off, ((chunksFrom maxBlock off rem).map Prod.snd).sum = rem := by
  intro rem
  induction rem using Nat.strong_induction_on with
  | _ rem ih =>
    intro off
    by_cases h : rem = 0
    · subst h; simp [chunksFrom_nil]
    · rw [chunksFrom_cons maxBlock off rem hmax (by omega)]
      simp only [List.map_cons, List.sum_cons]
      rw [ih (rem - min maxBlock rem) (by omega)]
      omega

lemma chunksFrom_mem (maxBlock : Nat) (hmax : 0 < maxBlock) :
    ∀ rem off c, c ∈ chunksFrom maxBlock off rem → 0 < c.2 ∧ c.2 ≤ maxBlock := by
  intro rem
  induction rem using Nat.strong_induction_on with
  | _ rem ih =>
    intro off c hc
    by_cases h : rem = 0
    · subst h; rw [chunksFrom_nil] at hc; cases hc
    · rw [chunksFrom_cons maxBlock off rem hmax (by omega)] at hc
      rcases List.mem_cons.mp hc with rfl | hc
      · constructor <;> simp <;> omega
      · exact ih (rem - min maxBlock rem) (by omega) _ c hc

lemma chunksFrom_length (maxBlock : Nat) (hmax : 0 < maxBlock) :
    ∀ rem off, (chunksFrom maxBlock off rem).length
      = (rem + maxBlock - 1) / maxBlock := by
  intro rem
  induction rem using Nat.strong_induction_on with
  | _ rem ih =>
    intro off
    by_cases h : rem = 0
    · subst h
      rw [chunksFrom_nil]
      rw [Nat.div_eq_of_lt (by omega)]
      rfl
    · rw [chunksFrom_cons maxBlock off rem hmax (by omega)]
      simp only [List.length_cons]
      rw [ih (rem - min maxBlock rem) (by omega)]
      by_cases hle : rem ≤ maxBlock
      · have hc : min maxBlock rem = rem := by omega
        rw [hc]
        simp only [Nat.sub_self]
        rw [Nat.div_eq_of_lt (by omega)]
        have h3 : (rem + maxBlock - 1) / maxBlock = 1 :=
          Nat.div_eq_of_lt_le (by omega) (by omega)
        rw [h3]
      · have hc : min maxBlock rem = maxBlock := by omega
        rw [hc]
        have e1 : rem - maxBlock + maxBlock - 1 = rem - 1 := by omega
        have e2 : rem + maxBlock - 1 = (rem - 1) + maxBlock := by omega
        rw [e1, e2, Nat.add_div_right _ hmax]

lemma chunksFrom_chain (maxBlock : Nat) (hmax : 0 < maxBlock) :
    ∀ rem off, List.Chain' (fun a b : Nat × Nat => a.1 + a.2 = b.1)
      (chunksFrom maxBlock off rem) := by
  intro rem
  induction rem using Nat.strong_induction_on with
  | _ rem ih =>
    intro off
    by_cases h : rem = 0
    · subst h; rw [chunksFrom_nil]; exact List.chain'_nil
    · rw [chunksFrom_cons maxBlock off rem hmax (by omega)]
      by_cases h2 : rem - min maxBlock rem = 0
      · rw [h2, chunksFrom_nil]
        exact List.chain'_singleton _
      · rw [chunksFrom_cons maxBlock _ _ hmax (by omega)]
        refine List.chain'_cons.mpr ⟨rfl, ?_⟩
        rw [← chunksFrom_cons maxBlock _ _ hmax (by omega)]
        exact ih (rem - min maxBlock rem) (by omega) _

lemma chunksFrom_head (maxBlock : Nat) (hmax : 0 < maxBlock) (rem off : Nat)
    (hrem : 0 < rem) :
    (chunksFrom maxBlock off rem).head? = some (off, min maxBlock rem) := by
  rw [chunksFrom_cons maxBlock off rem hmax hrem]
  rfl

lemma process_small (maxBlock : Nat) (base : Nat → Nat → Bool)
    (emit : Nat → Nat → List (List EventOut)) (off n : Nat) (midi : List Nat)
    (cnt : Nat) (q : ByteQueue) (h : ¬ n > maxBlock) :
    process maxBlock base emit true off n midi cnt q =
      if base off n then
        ⟨true, [⟨off, n, midi⟩], cnt + n, moveOutputEventsToQueue cnt q (emit off n)⟩
      else ⟨false, [⟨off, n, midi⟩], cnt, q⟩ := by
  rw [process]
  simp [h]

lemma process_notReady (maxBlock : Nat) (base : Nat → Nat → Bool)
    (emit : Nat → Nat → List (List EventOut)) (off n : Nat) (midi : List Nat)
    (cnt : Nat) (q : ByteQueue) :
    process maxBlock base emit false off n midi cnt q = ⟨false, [], cnt, q⟩ := by
  rw [process]
  simp

lemma processLoop_eq (maxBlock : Nat) (base : Nat → Nat → Bool)
    (emit : Nat → Nat → List (List EventOut)) (off n : Nat) (midi : List Nat)
    (hmax : 0 < maxBlock) (hn : maxBlock < n) :
    ∀ rem start cnt q, rem = n - start →
      processLoop maxBlock base emit true off n midi start cnt q =
        ⟨allOk base (chunksFrom maxBlock (off + start) (n - start)),
         callsThrough off midi base (chunksFrom maxBlock (off + start) (n - start)),
         cnt + framesDone base (chunksFrom maxBlock (off + start) (n - start)),
         queueThrough base emit cnt q (chunksFrom maxBlock (off + start) (n - start))⟩ := by
  intro rem
  induction rem using Nat.strong_induction_on with
  | _ rem ih =>
    intro start cnt q hrem
    by_cases hs : start < n
    · have h1 : 0 < min maxBlock (n - start) := by omega
      have h2 : min maxBlock (n - start) < n := by omega
      have hnb : ¬ min maxBlock (n - start) > maxBlock := by omega
      rw [processLoop]
      simp only [dif_pos hs, dif_pos h1, dif_pos h2]
      rw [process_small maxBlock base emit (off + start) (min maxBlock (n - start))
            (if start = 0 then midi else []) cnt q hnb]
      rw [chunksFrom_cons maxBlock (off + start) (n - start) hmax (by omega)]
      have hmid : (if start = 0 then midi else [])
          = (if off + start = off then midi else []) := by
        by_cases h0 : start = 0
        · simp [h0]
        · have : ¬ off + start = off := by omega
          simp [h0, this]
      by_cases hb : base (off + start) (min maxBlock (n - start)) = true
      · simp only [hb, if_true]
        have hrec := ih (n - (start + min maxBlock (n - start))) (by omega)
            (start + min maxBlock (n - start))
            (cnt + min maxBlock (n - start))
            (moveOutputEventsToQueue cnt q (emit (off + start) (min maxBlock (n - start))))
            rfl
        simp only [hrec]
        simp only [allOk, List.all_cons, hb, Bool.true_and,
          callsThrough, framesDone, queueThrough, hb, if_true, hmid]
        have e1 : off + (start + min maxBlock (n - start))
            = off + start + min maxBlock (n - start) := by omega
        have e2 : n - (start + min maxBlock (n - start))
            = n - start - min maxBlock (n - start) := by omega
        rw [e1, e2]
        simp only [ProcResult.mk.injEq, List.singleton_append, true_and, and_true]
        omega
      · have hb2 : base (off + start) (min maxBlock (n - start)) = false := by
          simpa using hb
        simp only [hb2, Bool.false_eq_true, if_false]
        simp only [allOk, List.all_cons, hb2, Bool.false_and,
          callsThrough, framesDone, queueThrough, hb2, Bool.false_eq_true, if_false, hmid]
        simp only [ProcResult.mk.injEq, List.singleton_append, true_and, and_true]
        omega
    · have h0 : n - start = 0 := by omega
      rw [processLoop]
      simp only [dif_neg hs, h0, chunksFrom_nil]
      simp [allOk, callsThrough, framesDone, queueThrough]

lemma process_eq_chunks (maxBlock : Nat) (base : Nat → Nat → Bool)
    (emit : Nat → Nat → List (List EventOut)) (off n : Nat) (midi : List Nat)
    (cnt : Nat) (q : ByteQueue) (hmax : 0 < maxBlock) :
    process maxBlock base emit true off n midi cnt q =
      ⟨allOk base (blockChunks maxBlock off n),
       callsThrough off midi base (blockChunks maxBlock off n),
       cnt + framesDone base (blockChunks maxBlock off n),
       queueThrough base emit cnt q (blockChunks maxBlock off n)⟩ := by
  by_cases h : n > maxBlock
  · have hstep : process maxBlock base emit true off n midi cnt q
        = processLoop maxBlock base emit true off n midi 0 cnt q := by
      rw [process]
      simp [h]
    rw [hstep, processLoop_eq maxBlock base emit off n midi hmax h (n - 0) 0 cnt q rfl]
    unfold blockChunks
    simp [h]
  · rw [process_small maxBlock base emit off n midi cnt q h]
    unfold blockChunks
    simp only [h, if_neg, Bool.false_eq_true]
    by_cases hb : base off n = true
    · simp [allOk, callsThrough, framesDone, queueThrough, hb]
    · have hb2 : base off n = false := by simpa using hb
      simp [allOk, callsThrough, framesDone, queueThrough, hb2]

lemma allOk_false_iff (base : Nat → Nat → Bool) (cs : List (Nat × Nat)) :
    allOk base cs = false ↔ ∃ c ∈ cs, base c.1 c.2 = false := by
  unfold allOk
  rw [← Bool.not_eq_true, List.all_eq_true]
  constructor
  · intro h
    push_neg at h
    obtain ⟨c, hc, hb⟩ := h
    exact ⟨c, hc, by simpa using hb⟩
  · intro ⟨c, hc, hb⟩ h
    have := h c hc
    rw [hb] at this
    cases this

lemma framesDone_of_allOk (base : Nat → Nat → Bool) :
    ∀ cs, allOk base cs = true → framesDone base cs = (cs.map Prod.snd).sum := by
  intro cs
  induction cs with
  | nil => intro _; rfl
  | cons c t ih =>
    intro h
    unfold allOk at h
    rw [List.all_cons, Bool.and_eq_true] at h
    unfold framesDone
    rw [if_pos h.1, ih h.2]
    simp

lemma callsThrough_of_allOk (off : Nat) (midi : List Nat) (base : Nat → Nat → Bool) :
    ∀ cs, allOk base cs = true →
      callsThrough off midi base cs
        = cs.map (fun c => ⟨c.1, c.2, if c.1 = off then midi else []⟩) := by
  intro cs
  induction cs with
  | nil => intro _; rfl
  | cons c t ih =>
    intro h
    unfold allOk at h
    rw [List.all_cons, Bool.and_eq_true] at h
    unfold callsThrough
    rw [if_pos h.1, ih h.2]
    rfl

lemma callsThrough_failAt (off : Nat) (midi : List Nat) (base : Nat → Nat → Bool) :
    ∀ pre (c : Nat × Nat) post, (∀ c2 ∈ pre, base c2.1 c2.2 = true) →
      base c.1 c.2 = false →
      callsThrough off midi base (pre ++ c :: post)
        = (pre ++ [c]).map (fun c2 => ⟨c2.1, c2.2, if c2.1 = off then midi else []⟩) := by
  intro pre
  induction pre with
  | nil =>
    intro c post _ hc
    simp [callsThrough, hc]
  | cons p t ih =>
    intro c post hpre hc
    have hp : base p.1 p.2 = true := hpre p (List.mem_cons_self p t)
    rw [List.cons_append]
    simp only [callsThrough, hp, if_true]
    rw [ih c post (fun c2 h2 => hpre c2 (List.mem_cons_of_mem p h2)) hc]
    simp

lemma blockChunks_sum (maxBlock off n : Nat) (hmax : 0 < maxBlock) :
    ((blockChunks maxBlock off n).map Prod.snd).sum = n := by
  unfold blockChunks
  by_cases h : n > maxBlock
  · rw [if_pos h]
    exact chunksFrom_sum maxBlock hmax n off
  · rw [if_neg h]
    simp

lemma blockChunks_mem (maxBlock off n : Nat) (hmax : 0 < maxBlock) :
    ∀ c ∈ blockChunks maxBlock off n, c.2 ≤ maxBlock := by
  unfold blockChunks
  by_cases h : n > maxBlock
  · rw [if_pos h]
    intro c hc
    exact (chunksFrom_mem maxBlock hmax n off c hc).2
  · rw [if_neg h]
    intro c hc
    rcases List.mem_singleton.mp hc with rfl
    simpa using h

lemma blockChunks_chain (maxBlock off n : Nat) (hmax : 0 < maxBlock) :
    List.Chain' (fun a b : Nat × Nat => a.1 + a.2 = b.1)
      (blockChunks maxBlock off n) := by
  unfold blockChunks
  by_cases h : n > maxBlock
  · rw [if_pos h]
    exact chunksFrom_chain maxBlock hmax n off
  · rw [if_neg h]
    exact List.chain'_singleton _

lemma blockChunks_head (maxBlock off n : Nat) (hmax : 0 < maxBlock) (hn : 0 < n) :
    (blockChunks maxBlock off n).head? = some (off, min maxBlock n) := by
  unfold blockChunks
  by_cases h : n > maxBlock
  · rw [if_pos h]
    exact chunksFrom_head maxBlock hmax n off hn
  · rw [if_neg h]
    have : min maxBlock n = n := by omega
    rw [this]
    rfl

/-! ## Claim C1: block slicing -/

/-- C1: for a block of `n > currentMaxBlockSize` frames, `process` splits
it into `⌈n / currentMaxBlockSize⌉` contiguous sub-blocks of at most
`currentMaxBlockSize` frames covering `[0, n)`, calls
`performer.advance()` once per sub-block, passes the full MIDI list only
to the first sub-block (empty lists to the rest), and returns false as
soon as a sub-block's recursive `process` fails, making no further
advance calls; for `n ≤ currentMaxBlockSize` it makes exactly one advance
call.  (Hypotheses: the performer is present — `advance` presupposes one —
and `currentMaxBlockSize > 0`, without which the source loop would not
terminate.) -/
theorem claim_C1 (maxBlock n : Nat) (midi : List Nat) (base : Nat → Nat → Bool)
    (emit : Nat → Nat → List (List EventOut)) (cnt : Nat) (q : ByteQueue)
    (hmax : 0 < maxBlock) :
    ((∀ c ∈ blockChunks maxBlock 0 n, base c.1 c.2 = true) →
       (process maxBlock base emit true 0 n midi cnt q).ok = true
       ∧ (process maxBlock base emit true 0 n midi cnt q).advanceCalls
           = (blockChunks maxBlock 0 n).map
               (fun c => ⟨c.1, c.2, if c.1 = 0 then midi else []⟩))
    ∧ ((process maxBlock base emit true 0 n midi cnt q).ok = false
         ↔ ∃ c ∈ blockChunks maxBlock 0 n, base c.1 c.2 = false)
    ∧ (∀ pre c post, blockChunks maxBlock 0 n = pre ++ c :: post →
         (∀ c2 ∈ pre, base c2.1 c2.2 = true) → base c.1 c.2 = false →
         (process maxBlock base emit true 0 n midi cnt q).advanceCalls
           = (pre ++ [c]).map (fun c2 => ⟨c2.1, c2.2, if c2.1 = 0 then midi else []⟩))
    ∧ (n > maxBlock →
         (blockChunks maxBlock 0 n).length = (n + maxBlock - 1) / maxBlock)
    ∧ (n ≤ maxBlock →
         (process maxBlock base emit true 0 n midi cnt q).advanceCalls
           = [⟨0, n, midi⟩])
    ∧ (0 < n → (blockChunks maxBlock 0 n).head? = some (0, min maxBlock n))
    ∧ List.Chain' (fun a b : Nat × Nat => a.1 + a.2 = b.1) (blockChunks maxBlock 0 n)
    ∧ ((blockChunks maxBlock 0 n).map Prod.snd).sum = n
    ∧ (∀ c ∈ blockChunks maxBlock 0 n, c.2 ≤ maxBlock) := by
  have hm := process_eq_chunks maxBlock base emit 0 n midi cnt q hmax
  refine ⟨?_, ?_, ?_, ?_, ?_, blockChunks_head maxBlock 0 n hmax,
    blockChunks_chain maxBlock 0 n hmax, blockChunks_sum maxBlock 0 n hmax,
    blockChunks_mem maxBlock 0 n hmax⟩
  · intro hall
    have hok : allOk base (blockChunks maxBlock 0 n) = true := by
      unfold allOk
      rw [List.all_eq_true]
      intro c hc
      exact hall c hc
    rw [hm]
    exact ⟨hok, callsThrough_of_allOk 0 midi base _ hok⟩
  · rw [hm]
    exact allOk_false_iff base _
  · intro pre c post hsplit hpre hc
    rw [hm]
    simp only [hsplit]
    exact callsThrough_failAt 0 midi base pre c post hpre hc
  · intro h
    exact chunksFrom_length maxBlock hmax n 0 ▸ (by unfold blockChunks; rw [if_pos h])
  · intro h
    rw [hm]
    have hbc : blockChunks maxBlock 0 n = [(0, n)] := by
      unfold blockChunks
      rw [if_neg (by omega)]
    rw [hbc]
    unfold callsThrough
    by_cases hb : base 0 n = true
    · rw [if_pos hb]; rfl
    · rw [if_neg hb]; rfl

/-- Witness for C1: a 5-frame block with `currentMaxBlockSize = 2` splits
into the advances `[0,2) [2,4) [4,5)`, only the first carrying the MIDI
list, and `⌈5/2⌉ = 3`. -/
theorem claim_C1_witness :
    (process 2 (fun _ _ => true) (fun _ _ => []) true 0 5 [7] 0 ⟨0, []⟩).ok = true
    ∧ (process 2 (fun _ _ => true) (fun _ _ => []) true 0 5 [7] 0 ⟨0, []⟩).advanceCalls
        = [⟨0, 2, [7]⟩, ⟨2, 2, []⟩, ⟨4, 1, []⟩]
    ∧ (blockChunks 2 0 5).length = (5 + 2 - 1) / 2 := by
  have h := claim_C1 2 5 [7] (fun _ _ => true) (fun _ _ => []) 0 ⟨0, []⟩ (by decide)
  have hall : ∀ c ∈ blockChunks 2 0 5, (fun _ _ : Nat => true) c.1 c.2 = true :=
    fun c _ => rfl
  refine ⟨(h.1 hall).1, ?_, h.2.2.2.1 (by decide)⟩
  rw [(h.1 hall).2]
  have hbc : blockChunks 2 0 5 = [(0, 2), (2, 2), (4, 1)] := by
    simp [blockChunks, chunksFrom]
  rw [hbc]
  rfl

/-! ## Claim C6: the frame counter (corrected) -/

/-- C6 (amended): after every call to `process` that returns true,
`numFramesProcessed` has increased by exactly `block.numFrames`; after any
call it has increased by the frames of the sub-blocks that completed
(possibly none), so it never decreases across any sequence of calls.  The
original claim — an increase of exactly `numFrames` after *every* call —
fails on calls that return false (see the counterexample). -/
theorem claim_C6 (maxBlock n : Nat) (midi : List Nat) (base : Nat → Nat → Bool)
    (emit : Nat → Nat → List (List EventOut)) (performerOk : Bool)
    (off cnt : Nat) (q : ByteQueue) (hmax : 0 < maxBlock) :
    ((process maxBlock base emit performerOk off n midi cnt q).ok = true →
       (process maxBlock base emit performerOk off n midi cnt q).numFramesProcessed
         = cnt + n)
    ∧ cnt ≤ (process maxBlock base emit performerOk off n midi cnt q).numFramesProcessed := by
  cases performerOk
  · rw [process_notReady]
    refine ⟨fun h => ?_, Nat.le_refl cnt⟩
    cases h
  · have hm := process_eq_chunks maxBlock base emit off n midi cnt q hmax
    rw [hm]
    refine ⟨fun hok => ?_, Nat.le_add_right cnt _⟩
    rw [framesDone_of_allOk base _ hok, blockChunks_sum maxBlock off n hmax]

/-- Counterexample for C6 as stated: a `process` call made while the
performer is null (before `prepareToStart` or after `playbackStopped`)
returns false and leaves `numFramesProcessed` unchanged — it does not
increase by `block.numFrames = 1`. -/
theorem claim_C6_counterexample :
    (process 512 (fun _ _ => true) (fun _ _ => []) false 0 1 [] 0
        ⟨8, []⟩).numFramesProcessed ≠ 0 + 1
    ∧ (process 512 (fun _ _ => true) (fun _ _ => []) false 0 1 [] 0 ⟨8, []⟩).ok
        = false := by
  rw [process_notReady]
  exact ⟨by decide, rfl⟩

/-- Witness for C6: a successful 5-frame call starting from
`numFramesProcessed = 3` ends at `3 + 5`. -/
theorem claim_C6_witness :
    ((process 2 (fun _ _ => true) (fun _ _ => []) true 0 5 [] 3 ⟨0, []⟩).ok = true →
       (process 2 (fun _ _ => true) (fun _ _ => []) true 0 5 [] 3
           ⟨0, []⟩).numFramesProcessed = 3 + 5)
    ∧ 3 ≤ (process 2 (fun _ _ => true) (fun _ _ => []) true 0 5 [] 3
        ⟨0, []⟩).numFramesProcessed :=
  claim_C6 2 5 [] (fun _ _ => true) (fun _ _ => []) true 0 3 ⟨0, []⟩ (by decide)

/-! ## Claim C10: outbound event capture overflow -/

lemma iterateEndpointEvents_records (cnt : Nat) :
    ∀ (evs : List EventOut) (q : ByteQueue),
      (iterateEndpointEvents cnt q evs).records
          = q.records ++ pushedRecords cnt q evs
      ∧ (iterateEndpointEvents cnt q evs).capacity = q.capacity := by
  intro evs
  induction evs with
  | nil => intro q; simp [iterateEndpointEvents, pushedRecords]
  | cons e rest ih =>
    intro q
    by_cases hf : fifoFits q (outputEventRecord cnt e) = true
    · have hstep : moveOutputEventToQueue cnt q e
          = (true, ⟨q.capacity, q.records ++ [outputEventRecord cnt e]⟩) := by
        unfold moveOutputEventToQueue fifoPush
        rw [if_pos hf]
      simp only [iterateEndpointEvents, hstep]
      obtain ⟨h1, h2⟩ := ih ⟨q.capacity, q.records ++ [outputEventRecord cnt e]⟩
      refine ⟨?_, h2⟩
      rw [h1]
      simp only [pushedRecords, hf, if_true]
      simp
    · have hf2 : fifoFits q (outputEventRecord cnt e) = false := by simpa using hf
      have hstep : moveOutputEventToQueue cnt q e = (false, q) := by
        unfold moveOutputEventToQueue fifoPush
        rw [if_neg hf]
      simp only [iterateEndpointEvents, hstep]
      simp [pushedRecords, hf2]

/-- C10: when a push onto `outputEventQueue` fails for lack of space,
`moveOutputEventToQueue` returns false, which stops iterating the current
endpoint's remaining events: exactly the pushable prefix is appended (in
order, after the untouched earlier queue contents), the rest of that
endpoint's events are dropped, the remaining endpoints are still drained,
and no failure reaches `process`, whose returned bool is the same
whatever the queue and emissions were. -/
theorem claim_C10 (cnt : Nat) (q : ByteQueue) (epsA epsB : List (List EventOut))
    (evs : List EventOut) (e : EventOut) (rest : List EventOut)
    (maxBlock n off : Nat) (midi : List Nat) (base : Nat → Nat → Bool)
    (emit emit2 : Nat → Nat → List (List EventOut)) (q2 : ByteQueue)
    (hmax : 0 < maxBlock) :
    ((iterateEndpointEvents cnt q evs).records
        = q.records ++ pushedRecords cnt q evs
      ∧ (iterateEndpointEvents cnt q evs).capacity = q.capacity)
    ∧ (fifoFits q (outputEventRecord cnt e) = false →
        iterateEndpointEvents cnt q (e :: rest) = q)
    ∧ moveOutputEventsToQueue cnt q (epsA ++ evs :: epsB)
        = moveOutputEventsToQueue cnt
            (iterateEndpointEvents cnt (moveOutputEventsToQueue cnt q epsA) evs) epsB
    ∧ (process maxBlock base emit true off n midi cnt q).ok
        = (process maxBlock base emit2 true off n midi cnt q2).ok := by
  refine ⟨iterateEndpointEvents_records cnt evs q, fun hf => ?_, ?_, ?_⟩
  · have hstep : moveOutputEventToQueue cnt q e = (false, q) := by
      unfold moveOutputEventToQueue fifoPush
      rw [if_neg (by simp [hf])]
    simp [iterateEndpointEvents, hstep]
  · unfold moveOutputEventsToQueue
    rw [List.foldl_append, List.foldl_cons]
  · rw [process_eq_chunks maxBlock base emit off n midi cnt q hmax,
        process_eq_chunks maxBlock base emit2 off n midi cnt q2 hmax]

/-- Witness for C10: a full queue (capacity 0) rejects the first event of
an endpoint, whose iteration then returns the queue unchanged; `process`
still reports success. -/
theorem claim_C10_witness :
    ((iterateEndpointEvents 0 ⟨0, []⟩ [⟨1, 0, 3, [5]⟩]).records
        = ([] : List (List Nat)) ++ pushedRecords 0 ⟨0, []⟩ [⟨1, 0, 3, [5]⟩]
      ∧ (iterateEndpointEvents 0 ⟨0, []⟩ [⟨1, 0, 3, [5]⟩]).capacity = 0)
    ∧ (fifoFits ⟨0, []⟩ (outputEventRecord 0 ⟨1, 0, 3, [5]⟩) = false →
        iterateEndpointEvents 0 ⟨0, []⟩ [⟨1, 0, 3, [5]⟩] = ⟨0, []⟩)
    ∧ moveOutputEventsToQueue 0 ⟨0, []⟩ ([] ++ [⟨1, 0, 3, [5]⟩] :: [])
        = moveOutputEventsToQueue 0
            (iterateEndpointEvents 0 (moveOutputEventsToQueue 0 ⟨0, []⟩ [])
              [⟨1, 0, 3, [5]⟩]) []
    ∧ (process 1 (fun _ _ => true) (fun _ _ => [[⟨1, 0, 3, [5]⟩]]) true 0 1 [] 0
          ⟨0, []⟩).ok
        = (process 1 (fun _ _ => true) (fun _ _ => []) true 0 1 [] 0 ⟨64, []⟩).ok :=
  claim_C10 0 ⟨0, []⟩ [] [] [⟨1, 0, 3, [5]⟩] ⟨1, 0, 3, [5]⟩ [] 1 1 0 []
    (fun _ _ => true) (fun _ _ => [[⟨1, 0, 3, [5]⟩]]) (fun _ _ => []) ⟨64, []⟩
    (by decide)

/-! ## Lemmas: the render loop -/

lemma takeWhile_eq_filter_of_sorted (s : Nat) :
    ∀ msgs : List (Nat × Nat), msgs.Pairwise (fun a b => a.2 ≤ b.2) →
      msgs.takeWhile (fun m => m.2 ≤ s) = msgs.filter (fun m => m.2 ≤ s) := by
  intro msgs
  induction msgs with
  | nil => intro _; rfl
  | cons m t ih =>
    intro h
    rw [List.pairwise_cons] at h
    by_cases hm : m.2 ≤ s
    · rw [List.takeWhile_cons, List.filter_cons]
      simp [hm, ih h.2]
    · rw [List.takeWhile_cons, List.filter_cons]
      have hnil : t.filter (fun m => decide (m.2 ≤ s)) = [] := by
        rw [List.filter_eq_nil_iff]
        intro z hz
        have := h.1 z hz
        simp only [decide_eq_true_eq]
        omega
      simp [hm, hnil]

lemma renderLoop_unfold_of_lt (blockSize start : Nat) (msgs : List (Nat × Nat))
    (h : start < blockSize) :
    ∃ st l, renderLoop blockSize start msgs = st :: l
      ∧ st.segStart = start
      ∧ st.delivered = msgs.takeWhile (fun m => m.2 ≤ start)
      ∧ st.replaceOutput = true := by
  rw [renderLoop]
  rw [if_pos h]
  by_cases hrest : msgs.dropWhile (fun m => m.2 ≤ start) = []
  · simp only [hrest]
    exact ⟨_, _, rfl, rfl, rfl, rfl⟩
  · simp only [dif_neg hrest]
    exact ⟨_, _, rfl, rfl, rfl, rfl⟩

lemma renderLoop_nil_of_ge (blockSize start : Nat) (msgs : List (Nat × Nat))
    (h : ¬ start < blockSize) : renderLoop blockSize start msgs = [] := by
  rw [renderLoop, if_neg h]

lemma renderLoop_flatten (blockSize : Nat) :
    ∀ (start : Nat) (msgs : List (Nat × Nat)), start < blockSize →
      (∀ m ∈ msgs, m.2 < blockSize) →
      ((renderLoop blockSize start msgs).map RenderStep.delivered).flatten = msgs := by
  intro start msgs
  induction start, msgs using renderLoop.induct blockSize with
  | case1 start msgs h rest heq =>
    intro _ _
    rw [renderLoop, if_pos h]
    rw [dif_pos heq]
    simp only [List.map_cons, List.map_nil, List.flatten_cons, List.flatten_nil,
      List.append_nil]
    conv_rhs => rw [← List.takeWhile_append_dropWhile
      (p := fun m : Nat × Nat => decide (m.2 ≤ start)) (l := msgs)]
    rw [show List.dropWhile (fun m : Nat × Nat => decide (m.2 ≤ start)) msgs = []
      from heq, List.append_nil]
  | case2 start msgs h rest hne t ih =>
    intro _ hlt
    have hsub := List.dropWhile_sublist (p := fun m : Nat × Nat => decide (m.2 ≤ start))
      (l := msgs)
    have hmem : (msgs.dropWhile (fun m => decide (m.2 ≤ start))).head hne ∈ msgs :=
      hsub.subset (List.head_mem hne)
    have ht : ((msgs.dropWhile (fun m => decide (m.2 ≤ start))).head hne).2
        < blockSize := hlt _ hmem
    have hlt2 : ∀ m ∈ msgs.dropWhile (fun m => decide (m.2 ≤ start)),
        m.2 < blockSize := fun m hm => hlt m (hsub.subset hm)
    rw [renderLoop, if_pos h, dif_neg hne]
    simp only [List.map_cons, List.flatten_cons]
    rw [ih ht hlt2]
    exact List.takeWhile_append_dropWhile _ _
  | case3 start msgs h =>
    intro h2 _
    exact absurd h2 h

lemma renderLoop_replace (blockSize : Nat) :
    ∀ (start : Nat) (msgs : List (Nat × Nat)) (st : RenderStep),
      st ∈ renderLoop blockSize start msgs → st.replaceOutput = true := by
  intro start msgs
  induction start, msgs using renderLoop.induct blockSize with
  | case1 start msgs h rest heq =>
    intro st hst
    rw [renderLoop, if_pos h, dif_pos heq] at hst
    rcases List.mem_singleton.mp hst with rfl
    rfl
  | case2 start msgs h rest hne t ih =>
    intro st hst
    rw [renderLoop, if_pos h, dif_neg hne] at hst
    rcases List.mem_cons.mp hst with rfl | hst
    · rfl
    · exact ih st hst
  | case3 start msgs h =>
    intro st hst
    rw [renderLoop_nil_of_ge blockSize start msgs h] at hst
    cases hst

lemma renderLoop_steps (blockSize : Nat) :
    ∀ (start : Nat) (msgs : List (Nat × Nat)) (st : RenderStep),
      st ∈ renderLoop blockSize start msgs →
        start ≤ st.segStart ∧ st.segStart < st.segEnd := by
  intro start msgs
  induction start, msgs using renderLoop.induct blockSize with
  | case1 start msgs h rest heq =>
    intro st hst
    rw [renderLoop, if_pos h, dif_pos heq] at hst
    rcases List.mem_singleton.mp hst with rfl
    exact ⟨Nat.le_refl start, h⟩
  | case2 start msgs h rest hne t ih =>
    intro st hst
    have hgt : start
        < ((msgs.dropWhile (fun m => decide (m.2 ≤ start))).head hne).2 := by
      have hx := List.head_dropWhile_not (fun m : Nat × Nat => decide (m.2 ≤ start))
        msgs hne
      simp only [decide_eq_false_iff_not, Nat.not_le] at hx
      exact hx
    rw [renderLoop, if_pos h, dif_neg hne] at hst
    rcases List.mem_cons.mp hst with rfl | hst
    · exact ⟨Nat.le_refl start, hgt⟩
    · obtain ⟨h1, h2⟩ := ih st hst
      exact ⟨Nat.le_of_lt (Nat.lt_of_lt_of_le hgt h1), h2⟩
  | case3 start msgs h =>
    intro st hst
    rw [renderLoop_nil_of_ge blockSize start msgs h] at hst
    cases hst

lemma renderLoop_chain (blockSize : Nat) :
    ∀ (start : Nat) (msgs : List (Nat × Nat)),
      List.Chain' (fun a b : RenderStep => a.segEnd = b.segStart)
        (renderLoop blockSize start msgs) := by
  intro start msgs
  induction start, msgs using renderLoop.induct blockSize with
  | case1 start msgs h rest heq =>
    rw [renderLoop, if_pos h, dif_pos heq]
    exact List.chain'_singleton _
  | case2 start msgs h rest hne t ih =>
    rw [renderLoop, if_pos h, dif_neg hne]
    dsimp only
    by_cases hlt : ((msgs.dropWhile (fun m => decide (m.2 ≤ start))).head hne).2
        < blockSize
    · obtain ⟨st2, l2, heq2, hstart2, _, _⟩ :=
        renderLoop_unfold_of_lt blockSize _ (msgs.dropWhile (fun m => decide (m.2 ≤ start))) hlt
      have ih2 : List.Chain' (fun a b : RenderStep => a.segEnd = b.segStart)
          (renderLoop blockSize
            ((msgs.dropWhile (fun m => decide (m.2 ≤ start))).head hne).2
            (msgs.dropWhile (fun m => decide (m.2 ≤ start)))) := ih
      rw [heq2]
      rw [heq2] at ih2
      exact List.chain'_cons.mpr ⟨hstart2.symm, ih2⟩
    · rw [renderLoop_nil_of_ge blockSize _ _ hlt]
      exact List.chain'_singleton _
  | case3 start msgs h =>
    rw [renderLoop_nil_of_ge blockSize start msgs h]
    exact List.chain'_nil

lemma renderLoop_getLast (blockSize : Nat) :
    ∀ (start : Nat) (msgs : List (Nat × Nat)), start < blockSize →
      (∀ m ∈ msgs, m.2 < blockSize) →
      ∀ st, (renderLoop blockSize start msgs).getLast? = some st →
        st.segEnd = blockSize := by
  intro start msgs
  induction start, msgs using renderLoop.induct blockSize with
  | case1 start msgs h rest heq =>
    intro _ _ st hst
    rw [renderLoop, if_pos h, dif_pos heq] at hst
    simp only [List.getLast?_singleton, Option.some.injEq] at hst
    rw [← hst]
  | case2 start msgs h rest hne t ih =>
    intro _ hlt st hst
    have hsub := List.dropWhile_sublist (p := fun m : Nat × Nat => decide (m.2 ≤ start))
      (l := msgs)
    have ht : ((msgs.dropWhile (fun m => decide (m.2 ≤ start))).head hne).2
        < blockSize := hlt _ (hsub.subset (List.head_mem hne))
    have hlt2 : ∀ m ∈ msgs.dropWhile (fun m => decide (m.2 ≤ start)),
        m.2 < blockSize := fun m hm => hlt m (hsub.subset hm)
    rw [renderLoop, if_pos h, dif_neg hne] at hst
    dsimp only at hst
    obtain ⟨st2, l2, heq2, _, _, _⟩ :=
      renderLoop_unfold_of_lt blockSize _ (msgs.dropWhile (fun m => decide (m.2 ≤ start))) ht
    rw [heq2, List.getLast?_cons_cons] at hst
    rw [← heq2] at hst
    exact ih ht hlt2 st hst
  | case3 start msgs h =>
    intro h2 _ st hst
    exact absurd h2 h

lemma sorted_head_le (l : List (Nat × Nat)) (h : l ≠ [])
    (hs : l.Pairwise (fun a b => a.2 ≤ b.2)) :
    ∀ m ∈ l, (l.head h).2 ≤ m.2 := by
  cases l with
  | nil => cases h rfl
  | cons x t =>
    intro m hm
    rcases List.mem_cons.mp hm with rfl | hm
    · exact Nat.le_refl _
    · exact (List.pairwise_cons.mp hs).1 m hm

lemma renderLoop_cumulative (blockSize : Nat) :
    ∀ (start : Nat) (msgs : List (Nat × Nat)),
      msgs.Pairwise (fun a b => a.2 ≤ b.2) → start < blockSize →
      ∀ i st, (renderLoop blockSize start msgs)[i]? = some st →
        (((renderLoop blockSize start msgs).take (i + 1)).map
            RenderStep.delivered).flatten
          = msgs.filter (fun m => decide (m.2 ≤ st.segStart)) := by
  intro start msgs
  induction start, msgs using renderLoop.induct blockSize with
  | case1 start msgs h rest heq =>
    intro hsorted _ i st hst
    rw [renderLoop, if_pos h, dif_pos heq] at hst ⊢
    cases i with
    | zero =>
      rw [List.getElem?_cons_zero, Option.some.injEq] at hst
      subst hst
      simp only [List.take_succ_cons, List.take_nil, List.map_cons, List.map_nil,
        List.flatten_cons, List.flatten_nil, List.append_nil]
      exact takeWhile_eq_filter_of_sorted start msgs hsorted
    | succ j =>
      rw [List.getElem?_cons_succ] at hst
      simp at hst
  | case2 start msgs h rest hne t ih =>
    intro hsorted _ i st hst
    have hsub := List.dropWhile_sublist (p := fun m : Nat × Nat => decide (m.2 ≤ start))
      (l := msgs)
    have hsorted2 : (msgs.dropWhile (fun m => decide (m.2 ≤ start))).Pairwise
        (fun a b => a.2 ≤ b.2) := hsorted.sublist hsub
    rw [renderLoop, if_pos h, dif_neg hne] at hst ⊢
    dsimp only at hst ⊢
    cases i with
    | zero =>
      rw [List.getElem?_cons_zero, Option.some.injEq] at hst
      subst hst
      simp only [List.take_succ_cons, List.take_zero, List.map_cons, List.map_nil,
        List.flatten_cons, List.flatten_nil, List.append_nil]
      exact takeWhile_eq_filter_of_sorted start msgs hsorted
    | succ j =>
      rw [List.getElem?_cons_succ] at hst
      by_cases hlt : ((msgs.dropWhile (fun m => decide (m.2 ≤ start))).head hne).2
          < blockSize
      · have hrec := ih hsorted2 hlt j st hst
        simp only [List.take_succ_cons, List.map_cons, List.flatten_cons]
        rw [hrec]
        have hmem : st ∈ renderLoop blockSize
            ((msgs.dropWhile (fun m => decide (m.2 ≤ start))).head hne).2
            (msgs.dropWhile (fun m => decide (m.2 ≤ start))) :=
          List.getElem?_mem hst
        have hstep := renderLoop_steps blockSize
          ((msgs.dropWhile (fun m => decide (m.2 ≤ start))).head hne).2
          (msgs.dropWhile (fun m => decide (m.2 ≤ start))) st hmem
        have hgt : start
            < ((msgs.dropWhile (fun m => decide (m.2 ≤ start))).head hne).2 := by
          have hx := List.head_dropWhile_not
            (fun m : Nat × Nat => decide (m.2 ≤ start)) msgs hne
          simp only [decide_eq_false_iff_not, Nat.not_le] at hx
          exact hx
        conv_rhs =>
          rw [← List.takeWhile_append_dropWhile
            (p := fun m : Nat × Nat => decide (m.2 ≤ start)) (l := msgs)]
        rw [List.filter_append]
        have hkeep : (msgs.takeWhile (fun m => decide (m.2 ≤ start))).filter
            (fun m => decide (m.2 ≤ st.segStart))
            = msgs.takeWhile (fun m => decide (m.2 ≤ start)) := by
          rw [List.filter_eq_self]
          intro a ha
          have := List.mem_takeWhile_imp ha
          simp only [decide_eq_true_eq] at this ⊢
          omega
        rw [hkeep]
      · rw [renderLoop_nil_of_ge blockSize _ _ hlt] at hst
        simp at hst
  | case3 start msgs h =>
    intro _ h2
    exact absurd h2 h

lemma renderLoop_ends (blockSize : Nat) :
    ∀ (start : Nat) (msgs : List (Nat × Nat)),
      msgs.Pairwise (fun a b => a.2 ≤ b.2) →
      ∀ st ∈ renderLoop blockSize start msgs,
        st.segEnd = blockSize
        ∨ (st.segEnd ∈ msgs.map Prod.snd
            ∧ ∀ m ∈ msgs, st.segStart < m.2 → st.segEnd ≤ m.2) := by
  intro start msgs
  induction start, msgs using renderLoop.induct blockSize with
  | case1 start msgs h rest heq =>
    intro _ st hst
    rw [renderLoop, if_pos h, dif_pos heq] at hst
    rcases List.mem_singleton.mp hst with rfl
    exact Or.inl rfl
  | case2 start msgs h rest hne t ih =>
    intro hsorted st hst
    have hsub := List.dropWhile_sublist (p := fun m : Nat × Nat => decide (m.2 ≤ start))
      (l := msgs)
    have hsorted2 : (msgs.dropWhile (fun m => decide (m.2 ≤ start))).Pairwise
        (fun a b => a.2 ≤ b.2) := hsorted.sublist hsub
    have hsplitm : ∀ m ∈ msgs,
        m ∈ msgs.takeWhile (fun m => decide (m.2 ≤ start))
        ∨ m ∈ msgs.dropWhile (fun m => decide (m.2 ≤ start)) := by
      intro m hm
      rw [← List.takeWhile_append_dropWhile
        (p := fun m : Nat × Nat => decide (m.2 ≤ start)) (l := msgs)] at hm
      exact List.mem_append.mp hm
    have htake : ∀ m ∈ msgs.takeWhile (fun m : Nat × Nat => decide (m.2 ≤ start)),
        m.2 ≤ start := by
      intro m hm
      have := List.mem_takeWhile_imp hm
      simpa using this
    rw [renderLoop, if_pos h, dif_neg hne] at hst
    dsimp only at hst
    rcases List.mem_cons.mp hst with rfl | hst
    · refine Or.inr ⟨?_, ?_⟩
      · simp only [RenderStep.segEnd]
        exact List.mem_map_of_mem Prod.snd
          (hsub.subset (List.head_mem hne))
      · intro m hm hgt
        simp only [RenderStep.segStart] at hgt
        rcases hsplitm m hm with hm2 | hm2
        · exact absurd hgt (by have := htake m hm2; omega)
        · exact sorted_head_le _ hne hsorted2 m hm2
    · rcases ih hsorted2 st hst with hbs | ⟨hmem, hmin⟩
      · exact Or.inl hbs
      · refine Or.inr ⟨?_, ?_⟩
        · rcases List.mem_map.mp hmem with ⟨m, hm, hm2⟩
          exact List.mem_map.mpr ⟨m, hsub.subset hm, hm2⟩
        · intro m hm hgt
          rcases hsplitm m hm with hm2 | hm2
          · have hst2 := renderLoop_steps blockSize _ _ st hst
            have hgt2 : start
                < ((msgs.dropWhile (fun m => decide (m.2 ≤ start))).head hne).2 := by
              have hx := List.head_dropWhile_not
                (fun m : Nat × Nat => decide (m.2 ≤ start)) msgs hne
              simp only [decide_eq_false_iff_not, Nat.not_le] at hx
              exact hx
            have := htake m hm2
            omega
          · exact hmin m hm2 hgt
  | case3 start msgs h =>
    intro _ st hst
    rw [renderLoop_nil_of_ge blockSize start msgs h] at hst
    cases hst

/-! ## Claim C9: MIDI-aware sub-blocking in the rendering player -/

/-- C9: one render-loop iteration with a non-empty MIDI list whose times
are sorted non-decreasingly and all below `blockSize` partitions
`[0, blockSize)` into contiguous segments — the first starts at 0, each
segment ends where the next begins, the last ends at `blockSize`, and
each segment ends at the earliest MIDI time after its start or at the
block end.  Every message is delivered exactly once, each segment's
`process` call is preceded by exactly the messages with time at or before
the segment start, and every `process` call passes
`replaceOutput = true`. -/
theorem claim_C9 (blockSize : Nat) (msgs : List (Nat × Nat))
    (hne : msgs ≠ [])
    (hsorted : msgs.Pairwise (fun a b => a.2 ≤ b.2))
    (hlt : ∀ m ∈ msgs, m.2 < blockSize) :
    (render blockSize msgs).head?.map RenderStep.segStart = some 0
    ∧ (∀ st, (render blockSize msgs).getLast? = some st → st.segEnd = blockSize)
    ∧ List.Chain' (fun a b : RenderStep => a.segEnd = b.segStart)
        (render blockSize msgs)
    ∧ (∀ st ∈ render blockSize msgs, st.segStart < st.segEnd)
    ∧ ((render blockSize msgs).map RenderStep.delivered).flatten = msgs
    ∧ (∀ i st, (render blockSize msgs)[i]? = some st →
        (((render blockSize msgs).take (i + 1)).map RenderStep.delivered).flatten
          = msgs.filter (fun m => decide (m.2 ≤ st.segStart)))
    ∧ (∀ st ∈ render blockSize msgs, st.segEnd = blockSize
        ∨ (st.segEnd ∈ msgs.map Prod.snd
            ∧ ∀ m ∈ msgs, st.segStart < m.2 → st.segEnd ≤ m.2))
    ∧ (∀ st ∈ render blockSize msgs, st.replaceOutput = true) := by
  have h0 : 0 < blockSize := by
    rcases List.exists_mem_of_ne_nil msgs hne with ⟨m, hm⟩
    have := hlt m hm
    omega
  have hrender : render blockSize msgs = renderLoop blockSize 0 msgs := by
    unfold render
    rw [if_pos (by simpa using hne)]
  rw [hrender]
  refine ⟨?_, fun st hst => renderLoop_getLast blockSize 0 msgs h0 hlt st hst,
    renderLoop_chain blockSize 0 msgs,
    fun st hst => (renderLoop_steps blockSize 0 msgs st hst).2,
    renderLoop_flatten blockSize 0 msgs h0 hlt,
    fun i st hst => renderLoop_cumulative blockSize 0 msgs hsorted h0 i st hst,
    fun st hst => renderLoop_ends blockSize 0 msgs hsorted st hst,
    fun st hst => renderLoop_replace blockSize 0 msgs st hst⟩
  obtain ⟨st, l, heq, hstart, _, _⟩ := renderLoop_unfold_of_lt blockSize 0 msgs h0
  rw [heq]
  simp [hstart]

/-- Witness for C9: a 10-frame block with MIDI at times 0, 3, 3, 7
partitions into `[0,3) [3,7) [7,10)`, with the time-0 message delivered
before the first segment, the two time-3 messages before the second, and
the time-7 message before the third. -/
theorem claim_C9_witness :
    (render 10 [(100, 0), (101, 3), (102, 3), (103, 7)]).head?.map
        RenderStep.segStart = some 0
    ∧ (∀ st, (render 10 [(100, 0), (101, 3), (102, 3), (103, 7)]).getLast?
          = some st → st.segEnd = 10)
    ∧ List.Chain' (fun a b : RenderStep => a.segEnd = b.segStart)
        (render 10 [(100, 0), (101, 3), (102, 3), (103, 7)])
    ∧ (∀ st ∈ render 10 [(100, 0), (101, 3), (102, 3), (103, 7)],
        st.segStart < st.segEnd)
    ∧ ((render 10 [(100, 0), (101, 3), (102, 3), (103, 7)]).map
        RenderStep.delivered).flatten = [(100, 0), (101, 3), (102, 3), (103, 7)]
    ∧ (∀ i st, (render 10 [(100, 0), (101, 3), (102, 3), (103, 7)])[i]? = some st →
        (((render 10 [(100, 0), (101, 3), (102, 3), (103, 7)]).take (i + 1)).map
            RenderStep.delivered).flatten
          = [(100, 0), (101, 3), (102, 3), (103, 7)].filter
              (fun m => decide (m.2 ≤ st.segStart)))
    ∧ (∀ st ∈ render 10 [(100, 0), (101, 3), (102, 3), (103, 7)],
        st.segEnd = 10
        ∨ (st.segEnd ∈ [(100, 0), (101, 3), (102, 3), (103, 7)].map Prod.snd
            ∧ ∀ m ∈ [(100, 0), (101, 3), (102, 3), (103, 7)],
                st.segStart < m.2 → st.segEnd ≤ m.2))
    ∧ (∀ st ∈ render 10 [(100, 0), (101, 3), (102, 3), (103, 7)],
        st.replaceOutput = true) :=
  claim_C9 10 [(100, 0), (101, 3), (102, 3), (103, 7)] (by decide) (by decide)
    (by decide)

/-! ## Lemmas: buffers and the output-clear action -/

lemma foldl_numChannels {α : Type} (f : Buffer → α → Buffer)
    (h : ∀ b x, (f b x).numChannels = b.numChannels) :
    ∀ (l : List α) (b : Buffer), (l.foldl f b).numChannels = b.numChannels := by
  intro l
  induction l with
  | nil => intro b; rfl
  | cons x t ih =>
    intro b
    rw [List.foldl_cons, ih, h]

lemma connReplaceClosure_numChannels (conn : AudioOutConnection)
    (ov ad : List (Nat × Nat)) (b : Buffer) :
    (connReplaceClosure conn ov ad b).numChannels = b.numChannels := by
  unfold connReplaceClosure
  by_cases h1 : conn.numChannelsInEndpoint = 1 ∧ ad = []
  · rw [if_pos h1]
    match ov with
    | [] => rfl
    | [m] => rfl
    | first :: second :: others =>
      dsimp only
      by_cases h2 : first.2 < b.numChannels
      · rw [if_pos h2]
        exact foldl_numChannels
          (fun b2 (c : Nat × Nat) =>
            if c.2 < b2.numChannels then copyToChannel b2 c.2 (b2.data first.2) else b2)
          (fun b2 c => by
            dsimp only
            by_cases h3 : c.2 < b2.numChannels
            · rw [if_pos h3]; rfl
            · rw [if_neg h3])
          (second :: others) (copyToChannel b first.2 (conn.endpointOut 0))
      · rw [if_neg h2]
  · rw [if_neg h1]
    exact (foldl_numChannels
        (fun b2 (c : Nat × Nat) => addToChannel b2 c.2 (conn.endpointOut c.1))
        (fun b2 c => rfl) ad
        (ov.foldl (fun b2 (c : Nat × Nat) =>
          copyToChannel b2 c.2 (conn.endpointOut c.1)) b)).trans
      (foldl_numChannels
        (fun b2 (c : Nat × Nat) => copyToChannel b2 c.2 (conn.endpointOut c.1))
        (fun b2 c => rfl) ov b)

lemma runOutputConnections_numChannels (initChans : Nat)
    (conns : List AudioOutConnection) (b : Buffer) :
    (runOutputConnections initChans conns b).numChannels = b.numChannels := by
  unfold runOutputConnections
  exact foldl_numChannels
    (fun bb (p : ConnPlan) => connReplaceClosure p.conn p.ov p.ad bb)
    (fun bb p => connReplaceClosure_numChannels p.conn p.ov p.ad bb) _ b

lemma clearChannelRange_data (b : Buffer) (lo hi c f : Nat) :
    (clearChannelRange b lo hi).data c f
      = if lo ≤ c ∧ c < hi then 0 else b.data c f := rfl

lemma clear_fold_keep (c f : Nat) :
    ∀ (l : List Nat) (b : Buffer), b.data c f = 0 →
      (l.foldl (fun b2 x => clearChannel b2 x) b).data c f = 0 := by
  intro l
  induction l with
  | nil => intro b h; exact h
  | cons x t ih =>
    intro b h
    rw [List.foldl_cons]
    refine ih _ ?_
    unfold clearChannel
    by_cases hx : c = x
    · simp [hx]
    · simp [hx, h]

lemma clear_fold_mem (c f : Nat) :
    ∀ (l : List Nat) (b : Buffer), c ∈ l →
      (l.foldl (fun b2 x => clearChannel b2 x) b).data c f = 0 := by
  intro l
  induction l with
  | nil => intro b h; cases h
  | cons x t ih =>
    intro b h
    rw [List.foldl_cons]
    rcases List.mem_cons.mp h with rfl | h
    · exact clear_fold_keep c f t _ (by simp [clearChannel])
    · exact ih _ h

lemma mem_channelsToClearList (used : List Bool) (c : Nat)
    (hlt : c < highestUsedChannel used) (hu : used.getD c false = false) :
    c ∈ channelsToClearList used := by
  unfold channelsToClearList
  rw [List.mem_filter]
  refine ⟨List.mem_range.mpr hlt, ?_⟩
  unfold List.getD at hu
  rw [List.get?_eq_getElem?] at hu
  simp [List.getD, List.get?_eq_getElem?, hu]

lemma highestUsed_zero_of_all_false (used : List Bool)
    (h : ∀ i, used.getD i false = false) : highestUsedChannel used = 0 := by
  unfold highestUsedChannel
  have : ∀ (l : List Nat), l.foldl (fun h2 i => if used.getD i false then i + 1 else h2) 0 = 0 := by
    intro l
    induction l with
    | nil => rfl
    | cons x t ih =>
      rw [List.foldl_cons, h x]
      simpa using ih
  exact this _

lemma getD_replicate_false (n i : Nat) :
    (List.replicate n false).getD i false = false := by
  unfold List.getD
  rw [List.get?_eq_getElem?]
  rcases h : (List.replicate n false)[i]? with _ | b
  · rfl
  · have := List.getElem?_mem h
    rw [List.eq_of_mem_replicate this]
    rfl

lemma clearAction_zero (used : List Bool) (b : Buffer) (c : Nat)
    (hc : c < b.numChannels) (hu : used.getD c false = false) (f : Nat) :
    (outputChannelClearAction used b).data c f = 0 := by
  unfold outputChannelClearAction
  by_cases h0 : highestUsedChannel used = 0
  · rw [if_pos h0]
    unfold clearAllChannels
    rw [clearChannelRange_data]
    simp [hc]
  · rw [if_neg h0]
    by_cases hcl : (channelsToClearList used).isEmpty
    · rw [if_pos hcl]
      have hch : highestUsedChannel used ≤ c := by
        by_contra hlt
        push_neg at hlt
        have := mem_channelsToClearList used c hlt hu
        rw [List.isEmpty_iff] at hcl
        rw [hcl] at this
        cases this
      rw [if_pos (by omega)]
      rw [clearChannelRange_data]
      simp only [if_pos (And.intro hch hc)]
    · rw [if_neg hcl]
      by_cases hch : c < highestUsedChannel used
      · have hmem := mem_channelsToClearList used c hch hu
        have hz := clear_fold_mem c f (channelsToClearList used) b hmem
        have hnc : ((channelsToClearList used).foldl
            (fun b2 x => clearChannel b2 x) b).numChannels = b.numChannels :=
          foldl_numChannels (fun b2 (x : Nat) => clearChannel b2 x)
            (fun b2 x => rfl) (channelsToClearList used) b
        by_cases hh : highestUsedChannel used
            < ((channelsToClearList used).foldl (fun b2 x => clearChannel b2 x) b).numChannels
        · rw [if_pos hh, clearChannelRange_data]
          by_cases hin : highestUsedChannel used ≤ c
              ∧ c < ((channelsToClearList used).foldl (fun b2 x => clearChannel b2 x) b).numChannels
          · rw [if_pos hin]
          · rw [if_neg hin]
            exact hz
        · rw [if_neg hh]
          exact hz
      · push_neg at hch
        have hnc : ((channelsToClearList used).foldl
            (fun b2 x => clearChannel b2 x) b).numChannels = b.numChannels :=
          foldl_numChannels (fun b2 (x : Nat) => clearChannel b2 x)
            (fun b2 x => rfl) (channelsToClearList used) b
        rw [if_pos (by omega), clearChannelRange_data]
        rw [if_pos (by constructor <;> omega)]

/-! ## Claim C3: unused output channels are cleared -/

/-- C3: after the replace-mode output pass of a performer built by
`createPerformer()` (the connections' replace closures followed by the
clear action), every host output channel not marked used by any connected
audio output endpoint — including every channel at or above the highest
used index — holds only zero samples; and if no channel is marked used at
all, the entire output buffer is cleared. -/
theorem claim_C3 (initChans : Nat) (conns : List AudioOutConnection) (b : Buffer) :
    (∀ c, c < b.numChannels →
      (buildOutputConnections initChans conns).1.getD c false = false →
      ∀ f, (runReplacePipeline initChans conns b).data c f = 0)
    ∧ ((∀ i, (buildOutputConnections initChans conns).1.getD i false = false) →
      ∀ c, c < b.numChannels →
      ∀ f, (runReplacePipeline initChans conns b).data c f = 0) := by
  have hnc := runOutputConnections_numChannels initChans conns b
  refine ⟨fun c hc hu f => ?_, fun hall c hc f => ?_⟩
  · unfold runReplacePipeline
    exact clearAction_zero _ _ c (by omega) hu f
  · unfold runReplacePipeline
    exact clearAction_zero _ _ c (by omega) (hall c) f

/-- Witness for C3: one mono connection writing host channel 0 of a
2-channel buffer that starts at 9 everywhere; the unused channel 1 is
zero after the replace pass. -/
theorem claim_C3_witness :
    (runReplacePipeline 2 [⟨1, [0], [0], fun _ _ => 5⟩]
        ⟨2, fun _ _ => 9⟩).data 1 0 = 0
    ∧ (runReplacePipeline 2 [] ⟨2, fun _ _ => 9⟩).data 0 0 = 0 :=
  ⟨(claim_C3 2 [⟨1, [0], [0], fun _ _ => 5⟩] ⟨2, fun _ _ => 9⟩).1 1 (by decide)
      (by decide) 0,
   (claim_C3 2 [] ⟨2, fun _ _ => 9⟩).2 (fun i => getD_replicate_false 2 i)
      0 (by decide) 0⟩

/-! ## Lemmas: the used-channel vector and mapping classification -/

lemma getD_cons_zero (x : Bool) (l : List Bool) : (x :: l).getD 0 false = x := rfl

lemma getD_cons_succ (x : Bool) (l : List Bool) (d : Nat) :
    (x :: l).getD (d + 1) false = l.getD d false := rfl

lemma getD_nil (d : Nat) : ([] : List Bool).getD d false = false := rfl

lemma getD_append_replicate (k : Nat) :
    ∀ (u : List Bool) (d : Nat),
      (u ++ List.replicate k false).getD d false = u.getD d false := by
  intro u
  induction u with
  | nil =>
    intro d
    rw [List.nil_append, getD_nil]
    exact getD_replicate_false k d
  | cons x t ih =>
    intro d
    cases d with
    | zero => rfl
    | succ j =>
      rw [List.cons_append, getD_cons_succ, getD_cons_succ]
      exact ih j

lemma getD_set_self : ∀ (u : List Bool) (d : Nat), d < u.length →
    (u.set d true).getD d false = true := by
  intro u
  induction u with
  | nil => intro d h; cases h
  | cons x t ih =>
    intro d h
    cases d with
    | zero => rfl
    | succ j =>
      rw [List.set_cons_succ, getD_cons_succ]
      exact ih j (by simpa using h)

lemma getD_set_ne : ∀ (u : List Bool) (e d : Nat), d ≠ e →
    (u.set e true).getD d false = u.getD d false := by
  intro u
  induction u with
  | nil => intro e d _; rfl
  | cons x t ih =>
    intro e d h
    cases e with
    | zero =>
      cases d with
      | zero => exact absurd rfl h
      | succ j => rfl
    | succ i =>
      cases d with
      | zero => rfl
      | succ j =>
        rw [List.set_cons_succ, getD_cons_succ, getD_cons_succ]
        exact ih i j (by omega)

/-- The resize step of the classification loop. -/
def resizeUsed (u : List Bool) (d : Nat) : List Bool :=
  if u.length ≤ d then u ++ List.replicate (d + 1 - u.length) false else u

lemma classifyMappings_cons (u : List Bool) (m : Nat × Nat)
    (rest : List (Nat × Nat)) :
    classifyMappings u (m :: rest)
      = if (resizeUsed u m.2).getD m.2 false then
          let r := classifyMappings (resizeUsed u m.2) rest
          (r.1, m :: r.2.1, r.2.2)
        else
          let r := classifyMappings ((resizeUsed u m.2).set m.2 true) rest
          (m :: r.1, r.2.1, r.2.2) := by
  rfl

lemma getD_resizeUsed (u : List Bool) (e d : Nat) :
    (resizeUsed u e).getD d false = u.getD d false := by
  unfold resizeUsed
  by_cases h : u.length ≤ e
  · rw [if_pos h]
    exact getD_append_replicate _ u d
  · rw [if_neg h]

lemma length_resizeUsed (u : List Bool) (e : Nat) : e < (resizeUsed u e).length := by
  unfold resizeUsed
  by_cases h : u.length ≤ e
  · rw [if_pos h]
    simp only [List.length_append, List.length_replicate]
    omega
  · rw [if_neg h]
    omega

lemma classify_used (d : Nat) : ∀ (maps : List (Nat × Nat)) (u : List Bool),
    (classifyMappings u maps).2.2.getD d false
      = (u.getD d false || maps.any (fun m => m.2 == d)) := by
  intro maps
  induction maps with
  | nil => intro u; simp [classifyMappings]
  | cons m rest ih =>
    intro u
    rw [classifyMappings_cons]
    by_cases hm : (resizeUsed u m.2).getD m.2 false = true
    · rw [if_pos hm]
      simp only
      rw [ih]
      rw [getD_resizeUsed]
      rw [getD_resizeUsed] at hm
      by_cases hd : m.2 = d
      · subst hd
        rw [hm]
        simp
      · have : (m.2 == d) = false := by simpa using hd
        simp [this]
    · rw [if_neg hm]
      simp only
      rw [ih]
      rw [getD_resizeUsed] at hm
      by_cases hd : m.2 = d
      · subst hd
        rw [getD_set_self _ _ (length_resizeUsed u m.2)]
        simp
      · rw [getD_set_ne _ _ _ (by omega), getD_resizeUsed]
        have : (m.2 == d) = false := by simpa using hd
        simp [this]

lemma classify_sublist : ∀ (maps : List (Nat × Nat)) (u : List Bool),
    (classifyMappings u maps).1.Sublist maps
    ∧ (classifyMappings u maps).2.1.Sublist maps := by
  intro maps
  induction maps with
  | nil => intro u; exact ⟨List.Sublist.refl _, List.Sublist.refl _⟩
  | cons m rest ih =>
    intro u
    rw [classifyMappings_cons]
    by_cases hm : (resizeUsed u m.2).getD m.2 false = true
    · rw [if_pos hm]
      exact ⟨(ih _).1.cons m, (ih _).2.cons₂ m⟩
    · rw [if_neg hm]
      exact ⟨(ih _).1.cons₂ m, (ih _).2.cons m⟩

lemma classify_mem (s d : Nat) : ∀ (maps : List (Nat × Nat)) (u : List Bool),
    (maps.map Prod.snd).Nodup →
    (((s, d) ∈ (classifyMappings u maps).1
        ↔ (s, d) ∈ maps ∧ u.getD d false = false)
     ∧ ((s, d) ∈ (classifyMappings u maps).2.1
        ↔ (s, d) ∈ maps ∧ u.getD d false = true)) := by
  intro maps
  induction maps with
  | nil =>
    intro u _
    simp [classifyMappings]
  | cons m rest ih =>
    obtain ⟨ms, md⟩ := m
    intro u hnodup
    rw [List.map_cons, List.nodup_cons] at hnodup
    obtain ⟨hm2, hnodup2⟩ := hnodup
    have hdnotin : ∀ s2, (s2, md) ∉ rest := by
      intro s2 hmem
      exact hm2 (List.mem_map.mpr ⟨(s2, md), hmem, rfl⟩)
    rw [classifyMappings_cons]
    by_cases hm : (resizeUsed u md).getD md false = true
    · rw [if_pos hm]
      rw [getD_resizeUsed] at hm
      obtain ⟨ihov, ihad⟩ := ih (resizeUsed u md) hnodup2
      rw [show ∀ e, (resizeUsed u md).getD e false = u.getD e false
        from fun e => getD_resizeUsed u md e] at ihov ihad
      simp only
      constructor
      · rw [ihov]
        by_cases hd : d = md
        · subst hd
          constructor
          · intro ⟨hmem, _⟩
            exact absurd hmem (hdnotin s)
          · intro ⟨_, hfalse⟩
            rw [hm] at hfalse
            cases hfalse
        · constructor
          · intro ⟨hmem, hu⟩
            exact ⟨List.mem_cons_of_mem _ hmem, hu⟩
          · intro ⟨hmem, hu⟩
            rcases List.mem_cons.mp hmem with heq | hmem2
            · cases heq; exact absurd rfl hd
            · exact ⟨hmem2, hu⟩
      · rw [List.mem_cons, ihad]
        by_cases hd : d = md
        · subst hd
          constructor
          · intro h
            rcases h with heq | ⟨hmem, _⟩
            · cases heq
              exact ⟨List.mem_cons_self _ _, hm⟩
            · exact absurd hmem (hdnotin s)
          · intro ⟨hmem, _⟩
            rcases List.mem_cons.mp hmem with heq | hmem2
            · cases heq; exact Or.inl rfl
            · exact absurd hmem2 (hdnotin s)
        · constructor
          · intro h
            rcases h with heq | ⟨hmem, hu⟩
            · cases heq; exact absurd rfl hd
            · exact ⟨List.mem_cons_of_mem _ hmem, hu⟩
          · intro ⟨hmem, hu⟩
            rcases List.mem_cons.mp hmem with heq | hmem2
            · cases heq; exact absurd rfl hd
            · exact Or.inr ⟨hmem2, hu⟩
    · rw [if_neg hm]
      have hmf : u.getD md false = false := by
        rw [getD_resizeUsed] at hm
        simpa using hm
      obtain ⟨ihov, ihad⟩ := ih ((resizeUsed u md).set md true) hnodup2
      simp only
      constructor
      · rw [List.mem_cons, ihov]
        by_cases hd : d = md
        · subst hd
          rw [getD_set_self _ _ (length_resizeUsed u d)]
          constructor
          · intro h
            rcases h with heq | ⟨hmem, hfalse⟩
            · cases heq
              exact ⟨List.mem_cons_self _ _, hmf⟩
            · cases hfalse
          · intro ⟨hmem, _⟩
            rcases List.mem_cons.mp hmem with heq | hmem2
            · cases heq; exact Or.inl rfl
            · exact absurd hmem2 (hdnotin s)
        · rw [getD_set_ne _ _ _ (by omega), getD_resizeUsed]
          constructor
          · intro h
            rcases h with heq | ⟨hmem, hu⟩
            · cases heq; exact absurd rfl hd
            · exact ⟨List.mem_cons_of_mem _ hmem, hu⟩
          · intro ⟨hmem, hu⟩
            rcases List.mem_cons.mp hmem with heq | hmem2
            · cases heq; exact absurd rfl hd
            · exact Or.inr ⟨hmem2, hu⟩
      · rw [ihad]
        by_cases hd : d = md
        · subst hd
          rw [getD_set_self _ _ (length_resizeUsed u d)]
          constructor
          · intro ⟨hmem, _⟩
            exact absurd hmem (hdnotin s)
          · intro ⟨_, htrue⟩
            rw [hmf] at htrue
            cases htrue
        · rw [getD_set_ne _ _ _ (by omega), getD_resizeUsed]
          constructor
          · intro ⟨hmem, hu⟩
            exact ⟨List.mem_cons_of_mem _ hmem, hu⟩
          · intro ⟨hmem, hu⟩
            rcases List.mem_cons.mp hmem with heq | hmem2
            · cases heq; exact absurd rfl hd
            · exact ⟨hmem2, hu⟩

lemma build_append (init : Nat) (l1 l2 : List AudioOutConnection) :
    buildOutputConnections init (l1 ++ l2)
      = l2.foldl addOutputCopyFunction (buildOutputConnections init l1) := by
  unfold buildOutputConnections
  rw [List.foldl_append]

lemma build_used_aux (d : Nat) :
    ∀ (conns : List AudioOutConnection) (st : List Bool × List ConnPlan),
      (conns.foldl addOutputCopyFunction st).1.getD d false
        = (st.1.getD d false || conns.any (fun c => mapsToDest c d)) := by
  intro conns
  induction conns with
  | nil => intro st; simp
  | cons c rest ih =>
    intro st
    rw [List.foldl_cons, ih]
    unfold addOutputCopyFunction
    by_cases hmt : (mapsOf c).isEmpty
    · rw [if_pos hmt]
      rw [List.isEmpty_iff] at hmt
      have : mapsToDest c d = false := by
        unfold mapsToDest
        rw [hmt]
        rfl
      simp [this]
    · rw [if_neg hmt]
      simp only
      rw [classify_used d (mapsOf c) st.1]
      unfold mapsToDest
      simp [Bool.or_assoc]

lemma build_used (init d : Nat) (conns : List AudioOutConnection) :
    (buildOutputConnections init conns).1.getD d false
      = conns.any (fun c => mapsToDest c d) := by
  unfold buildOutputConnections
  rw [build_used_aux]
  simp [getD_replicate_false]

lemma runOutput_snoc (init : Nat) (l : List AudioOutConnection)
    (c : AudioOutConnection) (b : Buffer) (hne : ¬ (mapsOf c).isEmpty = true) :
    runOutputConnections init (l ++ [c]) b
      = connReplaceClosure c
          (classifyMappings (buildOutputConnections init l).1 (mapsOf c)).1
          (classifyMappings (buildOutputConnections init l).1 (mapsOf c)).2.1
          (runOutputConnections init l b) := by
  unfold runOutputConnections
  rw [build_append]
  simp only [List.foldl_cons, List.foldl_nil]
  unfold addOutputCopyFunction
  rw [if_neg hne]
  simp only
  rw [List.foldl_append]
  simp

lemma runOutput_snoc_empty (init : Nat) (l : List AudioOutConnection)
    (c : AudioOutConnection) (b : Buffer) (hmt : (mapsOf c).isEmpty = true) :
    runOutputConnections init (l ++ [c]) b = runOutputConnections init l b := by
  unfold runOutputConnections
  rw [build_append]
  simp only [List.foldl_cons, List.foldl_nil]
  unfold addOutputCopyFunction
  rw [if_pos hmt]

lemma copyToChannel_data_self (b : Buffer) (c : Nat) (src : Nat → Int) (f : Nat) :
    (copyToChannel b c src).data c f = src f := by
  simp [copyToChannel]

lemma copyToChannel_data_ne (b : Buffer) (c d : Nat) (src : Nat → Int) (f : Nat)
    (h : d ≠ c) : (copyToChannel b c src).data d f = b.data d f := by
  simp [copyToChannel, h]

lemma addToChannel_data_self (b : Buffer) (c : Nat) (src : Nat → Int) (f : Nat) :
    (addToChannel b c src).data c f = b.data c f + src f := by
  simp [addToChannel]

lemma addToChannel_data_ne (b : Buffer) (c d : Nat) (src : Nat → Int) (f : Nat)
    (h : d ≠ c) : (addToChannel b c src).data d f = b.data d f := by
  simp [addToChannel, h]

lemma foldl_copyOut_untouched (g : Nat → Nat → Int) (d f : Nat) :
    ∀ (l : List (Nat × Nat)) (b : Buffer), d ∉ l.map Prod.snd →
      (l.foldl (fun b2 c => copyToChannel b2 c.2 (g c.1)) b).data d f
        = b.data d f := by
  intro l
  induction l with
  | nil => intro b _; rfl
  | cons c t ih =>
    intro b h
    rw [List.map_cons, List.mem_cons] at h
    push_neg at h
    rw [List.foldl_cons, ih _ h.2]
    exact copyToChannel_data_ne b c.2 d _ f h.1

lemma foldl_addOut_untouched (g : Nat → Nat → Int) (d f : Nat) :
    ∀ (l : List (Nat × Nat)) (b : Buffer), d ∉ l.map Prod.snd →
      (l.foldl (fun b2 c => addToChannel b2 c.2 (g c.1)) b).data d f
        = b.data d f := by
  intro l
  induction l with
  | nil => intro b _; rfl
  | cons c t ih =>
    intro b h
    rw [List.map_cons, List.mem_cons] at h
    push_neg at h
    rw [List.foldl_cons, ih _ h.2]
    exact addToChannel_data_ne b c.2 d _ f h.1

lemma foldl_copyOut_write (g : Nat → Nat → Int) (d f s : Nat) :
    ∀ (l : List (Nat × Nat)) (b : Buffer), (l.map Prod.snd).Nodup →
      (s, d) ∈ l →
      (l.foldl (fun b2 c => copyToChannel b2 c.2 (g c.1)) b).data d f = g s f := by
  intro l
  induction l with
  | nil => intro b _ h; cases h
  | cons c t ih =>
    intro b hnodup hmem
    rw [List.map_cons, List.nodup_cons] at hnodup
    rw [List.foldl_cons]
    rcases List.mem_cons.mp hmem with heq | hmem2
    · have hnt : d ∉ t.map Prod.snd := by
        rw [← heq] at hnodup
        exact hnodup.1
      rw [foldl_copyOut_untouched g d f t _ hnt, ← heq]
      exact copyToChannel_data_self b d (g s) f
    · have hne : d ≠ c.2 := by
        intro hd
        exact hnodup.1 (hd ▸ List.mem_map.mpr ⟨(s, d), hmem2, rfl⟩)
      exact ih _ hnodup.2 hmem2

lemma foldl_addOut_write (g : Nat → Nat → Int) (d f s : Nat) :
    ∀ (l : List (Nat × Nat)) (b : Buffer), (l.map Prod.snd).Nodup →
      (s, d) ∈ l →
      (l.foldl (fun b2 c => addToChannel b2 c.2 (g c.1)) b).data d f
        = b.data d f + g s f := by
  intro l
  induction l with
  | nil => intro b _ h; cases h
  | cons c t ih =>
    intro b hnodup hmem
    rw [List.map_cons, List.nodup_cons] at hnodup
    rw [List.foldl_cons]
    rcases List.mem_cons.mp hmem with heq | hmem2
    · have hnt : d ∉ t.map Prod.snd := by
        rw [← heq] at hnodup
        exact hnodup.1
      rw [foldl_addOut_untouched g d f t _ hnt, ← heq]
      exact addToChannel_data_self b d (g s) f
    · have hne : d ≠ c.2 := by
        intro hd
        exact hnodup.1 (hd ▸ List.mem_map.mpr ⟨(s, d), hmem2, rfl⟩)
      rw [ih _ hnodup.2 hmem2]
      rw [addToChannel_data_ne b c.2 d _ f hne]

lemma foldl_dup_numChannels (firstIdx f2 : Nat) :
    ∀ (l : List (Nat × Nat)) (b : Buffer),
      (l.foldl (fun b2 c => if c.2 < b2.numChannels
          then copyToChannel b2 c.2 (b2.data firstIdx) else b2) b).numChannels
        = b.numChannels :=
  fun l b => foldl_numChannels _ (fun b2 c => by
    by_cases h : c.2 < b2.numChannels
    · rw [if_pos h]; rfl
    · rw [if_neg h]) l b

lemma foldl_dup_untouched (firstIdx d f : Nat) :
    ∀ (l : List (Nat × Nat)) (b : Buffer), d ∉ l.map Prod.snd →
      (l.foldl (fun b2 c => if c.2 < b2.numChannels
          then copyToChannel b2 c.2 (b2.data firstIdx) else b2) b).data d f
        = b.data d f := by
  intro l
  induction l with
  | nil => intro b _; rfl
  | cons c t ih =>
    intro b h
    rw [List.map_cons, List.mem_cons] at h
    push_neg at h
    rw [List.foldl_cons, ih _ h.2]
    by_cases hc : c.2 < b.numChannels
    · rw [if_pos hc]
      exact copyToChannel_data_ne b c.2 d _ f h.1
    · rw [if_neg hc]

lemma foldl_dup_write (firstIdx d f : Nat) (v : Int) :
    ∀ (l : List (Nat × Nat)) (b : Buffer), (l.map Prod.snd).Nodup →
      firstIdx ∉ l.map Prod.snd → b.data firstIdx f = v →
      d ∈ l.map Prod.snd → d < b.numChannels →
      (l.foldl (fun b2 c => if c.2 < b2.numChannels
          then copyToChannel b2 c.2 (b2.data firstIdx) else b2) b).data d f
        = v := by
  intro l
  induction l with
  | nil => intro b _ _ _ h _; cases h
  | cons c t ih =>
    intro b hnodup hfirst hv hmem hd
    rw [List.map_cons, List.nodup_cons] at hnodup
    rw [List.map_cons, List.mem_cons] at hfirst
    push_neg at hfirst
    rw [List.foldl_cons]
    rcases List.mem_cons.mp hmem with heq | hmem2
    · rw [← heq] at hnodup ⊢
      rw [if_pos (heq ▸ hd)]
      rw [foldl_dup_untouched firstIdx d f t _ hnodup.1]
      rw [copyToChannel_data_self]
      exact hv
    · have hne : d ≠ c.2 := by
        intro hdc
        exact hnodup.1 (hdc ▸ hmem2)
      by_cases hc : c.2 < b.numChannels
      · rw [if_pos hc]
        refine ih _ hnodup.2 hfirst.2 ?_ hmem2 ?_
        · rw [copyToChannel_data_ne b c.2 firstIdx _ f (by omega)]
          exact hv
        · exact hd
      · rw [if_neg hc]
        exact ih _ hnodup.2 hfirst.2 hv hmem2 hd

lemma closure_untouched (conn : AudioOutConnection) (ov ad : List (Nat × Nat))
    (b : Buffer) (d f : Nat)
    (hov : d ∉ ov.map Prod.snd) (had : d ∉ ad.map Prod.snd) :
    (connReplaceClosure conn ov ad b).data d f = b.data d f := by
  unfold connReplaceClosure
  by_cases h1 : conn.numChannelsInEndpoint = 1 ∧ ad = []
  · rw [if_pos h1]
    rcases ov with _ | ⟨first, rest⟩
    · rfl
    rcases rest with _ | ⟨second, others⟩
    · dsimp only
      rw [List.map_cons, List.map_nil] at hov
      have : d ≠ first.2 := by simpa using hov
      exact copyToChannel_data_ne b first.2 d _ f this
    · dsimp only
      rw [List.map_cons, List.mem_cons] at hov
      push_neg at hov
      by_cases h2 : first.2 < b.numChannels
      · rw [if_pos h2]
        rw [foldl_dup_untouched first.2 d f _ _ hov.2]
        exact copyToChannel_data_ne b first.2 d _ f hov.1
      · rw [if_neg h2]
  · rw [if_neg h1]
    rw [foldl_addOut_untouched _ d f ad _ had]
    exact foldl_copyOut_untouched _ d f ov b hov

lemma closure_overwrite (conn : AudioOutConnection) (ov ad : List (Nat × Nat))
    (b : Buffer) (d f s : Nat)
    (hnodup : (ov.map Prod.snd).Nodup) (hmem : (s, d) ∈ ov)
    (had : d ∉ ad.map Prod.snd)
    (hbound : ∀ m ∈ ov, m.2 < b.numChannels)
    (hs : s < conn.numChannelsInEndpoint) :
    (connReplaceClosure conn ov ad b).data d f = conn.endpointOut s f := by
  unfold connReplaceClosure
  by_cases h1 : conn.numChannelsInEndpoint = 1 ∧ ad = []
  · rw [if_pos h1]
    have hs0 : s = 0 := by omega
    subst hs0
    rcases ov with _ | ⟨⟨fs, fd⟩, rest⟩
    · cases hmem
    rcases rest with _ | ⟨⟨gs, gd⟩, others⟩
    · dsimp only
      have heq := List.mem_singleton.mp hmem
      have hfd : fd = d := by
        have := congrArg Prod.snd heq
        simpa using this.symm
      subst hfd
      exact copyToChannel_data_self b fd _ f
    · dsimp only
      have hf : fd < b.numChannels := hbound (fs, fd) (List.mem_cons_self _ _)
      rw [if_pos hf]
      rw [List.map_cons, List.nodup_cons] at hnodup
      by_cases hd : d = fd
      · have hnt : d ∉ ((gs, gd) :: others).map Prod.snd := hd ▸ hnodup.1
        rw [foldl_dup_untouched fd d f _ _ hnt]
        rw [hd]
        exact copyToChannel_data_self b fd _ f
      · have hmemtail : (0, d) ∈ (gs, gd) :: others := by
          rcases List.mem_cons.mp hmem with heq | h2
          · have : d = fd := by
              have := congrArg Prod.snd heq
              simpa using this
            exact absurd this hd
          · exact h2
        have hdmem : d ∈ ((gs, gd) :: others).map Prod.snd :=
          List.mem_map.mpr ⟨(0, d), hmemtail, rfl⟩
        refine foldl_dup_write fd d f (conn.endpointOut 0 f) _ _
          hnodup.2 hnodup.1 ?_ hdmem ?_
        · exact copyToChannel_data_self b fd _ f
        · exact hbound (0, d) (List.mem_cons_of_mem _ hmemtail)
  · rw [if_neg h1]
    rw [foldl_addOut_untouched _ d f ad _ had]
    exact foldl_copyOut_write _ d f s ov b hnodup hmem

lemma closure_add (conn : AudioOutConnection) (ov ad : List (Nat × Nat))
    (b : Buffer) (d f s : Nat)
    (hnodup : (ad.map Prod.snd).Nodup) (hmem : (s, d) ∈ ad)
    (hov : d ∉ ov.map Prod.snd) :
    (connReplaceClosure conn ov ad b).data d f
      = b.data d f + conn.endpointOut s f := by
  unfold connReplaceClosure
  have hne : ad ≠ [] := List.ne_nil_of_mem hmem
  rw [if_neg (by intro h; exact hne h.2)]
  rw [foldl_addOut_write _ d f s ad _ hnodup hmem]
  rw [foldl_copyOut_untouched _ d f ov b hov]

/-! ## Claim C2: overlapping output connections -/

/-- C2: when several audio output connections map onto the same host
output channel `d`, the first connection registered for `d` has its
mapping classified overwrite — the `audioOutputChannelsUsed` entry for `d`
is still false when it is classified — and its replace closure writes `d`
(the written value is the endpoint's output, whatever the buffer held);
every later connection mapping onto `d` sees the entry already true, is
classified add, and its replace closure accumulates onto `d`.  This holds
for every decomposition `pre ++ ck :: post` of the registration order,
i.e. for all registration orders among the overlapping connections.
(Hypotheses: each connection's destination list has no duplicates, and
its channel indices are in range.) -/
theorem claim_C2 (initChans : Nat) (pre post : List AudioOutConnection)
    (ck : AudioOutConnection) (b : Buffer) (s d : Nat)
    (hnodup : ∀ c ∈ pre ++ ck :: post, ((mapsOf c).map Prod.snd).Nodup)
    (hvalid : ∀ c ∈ pre ++ ck :: post, ∀ m ∈ mapsOf c,
        m.2 < b.numChannels ∧ m.1 < c.numChannelsInEndpoint)
    (hpre : ∀ c ∈ pre, mapsToDest c d = false)
    (hk : (s, d) ∈ mapsOf ck) :
    ((buildOutputConnections initChans pre).1.getD d false = false
     ∧ (s, d) ∈ (classifyMappings (buildOutputConnections initChans pre).1
          (mapsOf ck)).1)
    ∧ (∀ f, (runOutputConnections initChans (pre ++ [ck]) b).data d f
        = ck.endpointOut s f)
    ∧ (∀ mid cj rest, post = mid ++ cj :: rest → ∀ s2, (s2, d) ∈ mapsOf cj →
        ((buildOutputConnections initChans (pre ++ ck :: mid)).1.getD d false
            = true
         ∧ (s2, d) ∈ (classifyMappings
              (buildOutputConnections initChans (pre ++ ck :: mid)).1
              (mapsOf cj)).2.1
         ∧ (s2, d) ∉ (classifyMappings
              (buildOutputConnections initChans (pre ++ ck :: mid)).1
              (mapsOf cj)).1
         ∧ ∀ f, (runOutputConnections initChans ((pre ++ ck :: mid) ++ [cj])
                b).data d f
             = (runOutputConnections initChans (pre ++ ck :: mid) b).data d f
               + cj.endpointOut s2 f)) := by
  have hckmem : ck ∈ pre ++ ck :: post :=
    List.mem_append_right _ (List.mem_cons_self _ _)
  have hnodupck := hnodup ck hckmem
  have hupre : (buildOutputConnections initChans pre).1.getD d false = false := by
    rw [build_used]
    rw [List.any_eq_false]
    intro c hc
    rw [hpre c hc]
    simp
  have hclassk := classify_mem s d (mapsOf ck)
    (buildOutputConnections initChans pre).1 hnodupck
  have hov : (s, d) ∈ (classifyMappings (buildOutputConnections initChans pre).1
      (mapsOf ck)).1 := hclassk.1.mpr ⟨hk, hupre⟩
  refine ⟨⟨hupre, hov⟩, ?_, ?_⟩
  · intro f
    have hne : ¬ (mapsOf ck).isEmpty = true := by
      intro h
      rw [List.isEmpty_iff] at h
      exact (List.ne_nil_of_mem hk) h
    rw [runOutput_snoc initChans pre ck b hne]
    refine closure_overwrite ck _ _ _ d f s ?_ hov ?_ ?_ ?_
    · exact hnodupck.sublist ((classify_sublist (mapsOf ck) _).1.map Prod.snd)
    · intro hmem
      rcases List.mem_map.mp hmem with ⟨⟨s3, d3⟩, hmem3, hd3⟩
      have hd3e : d3 = d := hd3
      subst hd3e
      have := (classify_mem s3 d3 (mapsOf ck) _ hnodupck).2.mp hmem3
      rw [hupre] at this
      exact absurd this.2 (by simp)
    · intro m hm
      have hmm : m ∈ mapsOf ck := ((classify_sublist (mapsOf ck) _).1).subset hm
      rw [runOutputConnections_numChannels]
      exact (hvalid ck hckmem m hmm).1
    · exact (hvalid ck hckmem (s, d) hk).2
  · intro mid cj rest hpost s2 hj
    subst hpost
    have hcjmem : cj ∈ pre ++ ck :: (mid ++ cj :: rest) :=
      List.mem_append_right _ (List.mem_cons_of_mem _
        (List.mem_append_right _ (List.mem_cons_self _ _)))
    have hnodupcj := hnodup cj hcjmem
    have huj : (buildOutputConnections initChans (pre ++ ck :: mid)).1.getD d false
        = true := by
      rw [build_used]
      rw [List.any_eq_true]
      refine ⟨ck, List.mem_append_right _ (List.mem_cons_self _ _), ?_⟩
      unfold mapsToDest
      rw [List.any_eq_true]
      exact ⟨(s, d), hk, by simp⟩
    have hclassj := classify_mem s2 d (mapsOf cj)
      (buildOutputConnections initChans (pre ++ ck :: mid)).1 hnodupcj
    have had : (s2, d) ∈ (classifyMappings
        (buildOutputConnections initChans (pre ++ ck :: mid)).1
        (mapsOf cj)).2.1 := hclassj.2.mpr ⟨hj, huj⟩
    have hnov : (s2, d) ∉ (classifyMappings
        (buildOutputConnections initChans (pre ++ ck :: mid)).1
        (mapsOf cj)).1 := by
      intro hmem
      have := hclassj.1.mp hmem
      rw [huj] at this
      exact absurd this.2 (by simp)
    refine ⟨huj, had, hnov, ?_⟩
    intro f
    have hnej : ¬ (mapsOf cj).isEmpty = true := by
      intro h
      rw [List.isEmpty_iff] at h
      exact (List.ne_nil_of_mem hj) h
    rw [runOutput_snoc initChans (pre ++ ck :: mid) cj b hnej]
    refine closure_add cj _ _ _ d f s2 ?_ had ?_
    · exact hnodupcj.sublist ((classify_sublist (mapsOf cj) _).2.map Prod.snd)
    · intro hmem
      rcases List.mem_map.mp hmem with ⟨⟨s3, d3⟩, hmem3, hd3⟩
      have hd3e : d3 = d := hd3
      subst hd3e
      have := (classify_mem s3 d3 (mapsOf cj) _ hnodupcj).1.mp hmem3
      rw [huj] at this
      exact absurd this.2 (by simp)

/-- Witness for C2: two mono connections both routed to host channel 0 of
a one-channel buffer; the first (outputting 3) is classified overwrite and
writes channel 0, the second (outputting 4) is classified add and
accumulates onto it. -/
theorem claim_C2_witness :
    ((buildOutputConnections 1 ([] : List AudioOutConnection)).1.getD 0 false
        = false
     ∧ ((0 : Nat), (0 : Nat)) ∈ (classifyMappings
          (buildOutputConnections 1 ([] : List AudioOutConnection)).1
          (mapsOf ⟨1, [0], [0], fun _ _ => 3⟩)).1)
    ∧ (∀ f, (runOutputConnections 1
          ([] ++ [(⟨1, [0], [0], fun _ _ => 3⟩ : AudioOutConnection)])
          ⟨1, fun _ _ => 9⟩).data 0 f
        = AudioOutConnection.endpointOut ⟨1, [0], [0], fun _ _ => 3⟩ 0 f)
    ∧ ((buildOutputConnections 1
          ([] ++ (⟨1, [0], [0], fun _ _ => 3⟩ : AudioOutConnection)
            :: [])).1.getD 0 false = true
       ∧ ∀ f, (runOutputConnections 1
            (([] ++ (⟨1, [0], [0], fun _ _ => 3⟩ : AudioOutConnection) :: [])
              ++ [(⟨1, [0], [0], fun _ _ => 4⟩ : AudioOutConnection)])
            ⟨1, fun _ _ => 9⟩).data 0 f
          = (runOutputConnections 1
              ([] ++ (⟨1, [0], [0], fun _ _ => 3⟩ : AudioOutConnection) :: [])
              ⟨1, fun _ _ => 9⟩).data 0 f
            + AudioOutConnection.endpointOut ⟨1, [0], [0], fun _ _ => 4⟩ 0 f) := by
  have h := claim_C2 1 [] [⟨1, [0], [0], fun _ _ => 4⟩]
    ⟨1, [0], [0], fun _ _ => 3⟩ ⟨1, fun _ _ => 9⟩ 0 0
    (by
      intro c hc
      simp only [List.nil_append, List.mem_cons, List.not_mem_nil, or_false] at hc
      rcases hc with rfl | rfl
      · decide
      · decide)
    (by
      intro c hc
      simp only [List.nil_append, List.mem_cons, List.not_mem_nil, or_false] at hc
      rcases hc with rfl | rfl
      · intro m hm
        simp only [mapsOf, List.zip_cons_cons, List.zip_nil_right,
          List.mem_singleton] at hm
        subst hm
        exact ⟨by decide, by decide⟩
      · intro m hm
        simp only [mapsOf, List.zip_cons_cons, List.zip_nil_right,
          List.mem_singleton] at hm
        subst hm
        exact ⟨by decide, by decide⟩)
    (by intro c hc; cases hc)
    (by decide)
  have h3 := h.2.2 [] ⟨1, [0], [0], fun _ _ => 4⟩ [] rfl 0 (by decide)
  exact ⟨h.1, h.2.1, h3.1, h3.2.2.2⟩

/-! ## Lemmas: counting and ranks for the cache purge -/

lemma countP_lt_head_zero {α : Type} (key : α → Nat) (a : α) (t : List α)
    (hs : (a :: t).Pairwise (fun x y => key x ≤ key y)) :
    (a :: t).countP (fun y => decide (key y < key a)) = 0 := by
  rw [List.countP_eq_zero]
  intro y hy
  simp only [decide_eq_true_eq, Nat.not_lt]
  rcases List.mem_cons.mp hy with rfl | hy
  · exact Nat.le_refl _
  · exact (List.pairwise_cons.mp hs).1 y hy

lemma sorted_take_rank {α : Type} (key : α → Nat) :
    ∀ (s : List α), s.Pairwise (fun x y => key x ≤ key y) → s.Nodup →
      (∀ x ∈ s, ∀ y ∈ s, key x = key y → x = y) →
      ∀ x ∈ s, ∀ k, (x ∈ s.take k
        ↔ s.countP (fun y => decide (key y < key x)) < k) := by
  intro s
  induction s with
  | nil => intro _ _ _ x hx; cases hx
  | cons a t ih =>
    intro hs hnodup hinj x hx k
    rcases List.mem_cons.mp hx with rfl | hxt
    · rw [countP_lt_head_zero key x t hs]
      cases k with
      | zero => simp
      | succ j =>
        simp [List.take_succ_cons]
    · have hanex : a ≠ x := by
        intro h
        exact (List.nodup_cons.mp hnodup).1 (h ▸ hxt)
      have hax : key a < key x := by
        have hle : key a ≤ key x := (List.pairwise_cons.mp hs).1 x hxt
        rcases Nat.lt_or_ge (key a) (key x) with h | h
        · exact h
        · have : key a = key x := by omega
          exact absurd (hinj a (List.mem_cons_self a t) x hx this) hanex
      rw [List.countP_cons]
      have hax2 : (decide (key a < key x)) = true := by simpa using hax
      rw [hax2, if_pos rfl]
      cases k with
      | zero => simp
      | succ j =>
        rw [List.take_succ_cons, List.mem_cons]
        have iht := ih (List.pairwise_cons.mp hs).2 (List.nodup_cons.mp hnodup).2
          (fun x2 hx2 y2 hy2 => hinj x2 (List.mem_cons_of_mem a hx2) y2
            (List.mem_cons_of_mem a hy2)) x hxt j
        constructor
        · intro h
          rcases h with h | h
          · exact absurd h.symm hanex
          · have := iht.mp h
            omega
        · intro h
          exact Or.inr (iht.mpr (by omega))

lemma countP_trichotomy {α : Type} (key : α → Nat) (k0 : Nat) :
    ∀ l : List α,
      l.countP (fun y => decide (key y < k0))
        + l.countP (fun y => decide (key y = k0))
        + l.countP (fun y => decide (k0 < key y)) = l.length := by
  intro l
  induction l with
  | nil => rfl
  | cons a t ih =>
    rw [List.countP_cons, List.countP_cons, List.countP_cons, List.length_cons]
    rcases Nat.lt_trichotomy (key a) k0 with h | h | h
    · have h1 : (decide (key a < k0)) = true := by simpa using h
      have h2 : (decide (key a = k0)) = false := by simp; omega
      have h3 : (decide (k0 < key a)) = false := by simp; omega
      rw [h1, h2, h3]
      have htrue : (if (true : Bool) = true then 1 else 0) = 1 := rfl
      have hfalse : (if (false : Bool) = true then 1 else 0) = 0 := rfl
      simp only [htrue, hfalse, eq_self_iff_true, if_true]
      omega
    · have h1 : (decide (key a < k0)) = false := by simp; omega
      have h2 : (decide (key a = k0)) = true := by simpa using h
      have h3 : (decide (k0 < key a)) = false := by simp; omega
      rw [h1, h2, h3]
      have htrue : (if (true : Bool) = true then 1 else 0) = 1 := rfl
      have hfalse : (if (false : Bool) = true then 1 else 0) = 0 := rfl
      simp only [htrue, hfalse, eq_self_iff_true, if_true]
      omega
    · have h1 : (decide (key a < k0)) = false := by simp; omega
      have h2 : (decide (key a = k0)) = false := by simp; omega
      have h3 : (decide (k0 < key a)) = true := by simpa using h
      rw [h1, h2, h3]
      have htrue : (if (true : Bool) = true then 1 else 0) = 1 := rfl
      have hfalse : (if (false : Bool) = true then 1 else 0) = 0 := rfl
      simp only [htrue, hfalse, eq_self_iff_true, if_true]
      omega

lemma countP_key_eq_one {α : Type} (key : α → Nat) (x : α) :
    ∀ l : List α, l.Nodup → (∀ a ∈ l, ∀ b ∈ l, key a = key b → a = b) →
      x ∈ l → l.countP (fun y => decide (key y = key x)) = 1 := by
  intro l
  induction l with
  | nil => intro _ _ h; cases h
  | cons a t ih =>
    intro hnodup hinj hx
    rw [List.countP_cons]
    rcases List.mem_cons.mp hx with rfl | hxt
    · have hz : t.countP (fun y => decide (key y = key x)) = 0 := by
        rw [List.countP_eq_zero]
        intro y hy
        simp only [decide_eq_true_eq]
        intro hkey
        have := hinj y (List.mem_cons_of_mem x hy) x (List.mem_cons_self x t) hkey
        exact (List.nodup_cons.mp hnodup).1 (this ▸ hy)
      rw [hz]
      simp
    · have hne : a ≠ x := by
        intro h
        exact (List.nodup_cons.mp hnodup).1 (h ▸ hxt)
      have hkne : (decide (key a = key x)) = false := by
        simp only [decide_eq_false_iff_not]
        intro hkey
        exact hne (hinj a (List.mem_cons_self a t) x (List.mem_cons_of_mem a hxt) hkey)
      rw [hkne]
      have : (if (false : Bool) = true then 1 else 0) = 0 := rfl
      rw [this, Nat.add_zero]
      exact ih (List.nodup_cons.mp hnodup).2
        (fun a2 ha2 b2 hb2 => hinj a2 (List.mem_cons_of_mem a ha2) b2
          (List.mem_cons_of_mem a hb2)) hxt

lemma countP_congr_mem {α : Type} (p q : α → Bool) :
    ∀ l : List α, (∀ a ∈ l, p a = q a) → l.countP p = l.countP q := by
  intro l
  induction l with
  | nil => intro _; rfl
  | cons a t ih =>
    intro h
    rw [List.countP_cons, List.countP_cons, h a (List.mem_cons_self a t),
      ih (fun b hb => h b (List.mem_cons_of_mem a hb))]

lemma countP_not_mem_take {α : Type} [DecidableEq α] (t l : List α) (k : Nat)
    (hnd : l.Nodup) (hk : k ≤ l.length) (ht : t = l.take k) :
    l.countP (fun a => decide (a ∉ t)) = l.length - k := by
  conv_lhs => rw [← List.take_append_drop k l]
  rw [List.countP_append]
  have hz : (l.take k).countP (fun a => decide (a ∉ t)) = 0 := by
    rw [List.countP_eq_zero]
    intro a ha
    simp only [decide_eq_true_eq, Decidable.not_not]
    rw [ht]
    exact ha
  have hfull : (l.drop k).countP (fun a => decide (a ∉ t))
      = (l.drop k).length := by
    rw [List.countP_eq_length]
    intro a ha
    simp only [decide_eq_true_eq]
    intro hat
    rw [ht] at hat
    exact (List.disjoint_take_drop hnd (Nat.le_refl k)) hat ha
  rw [hz, hfull, List.length_drop]
  omega

/-! ## Claim C8: cache eviction keeps the newest files -/

/-- C8: a purge run on a folder holding `N > maxNumFiles` cache-prefixed
files (with distinct modification times and distinct names) deletes
exactly the `N - maxNumFiles` oldest of them: afterwards exactly
`maxNumFiles` cache files remain, a cache file survives exactly when
fewer than `maxNumFiles` cache files are newer than it (i.e. it is among
the `maxNumFiles` most recently touched — stored or reloaded — ones), and
non-cache files are untouched.  Nothing is ever added. -/
theorem claim_C8 (maxN : Nat) (folder : List FolderEntry)
    (hnames : (folder.map FolderEntry.name).Nodup)
    (hmt : ∀ f ∈ folder, ∀ g ∈ folder, isCacheFile f = true →
        isCacheFile g = true → f.mtime = g.mtime → f = g)
    (hN : (folder.filter isCacheFile).length > maxN) :
    ((removeOldFiles maxN folder).filter isCacheFile).length = maxN
    ∧ (∀ f ∈ folder, isCacheFile f = true →
        (f ∈ removeOldFiles maxN folder
          ↔ (folder.filter isCacheFile).countP
              (fun g => decide (f.mtime < g.mtime)) < maxN))
    ∧ (∀ f ∈ folder, isCacheFile f = false → f ∈ removeOldFiles maxN folder)
    ∧ (∀ f ∈ removeOldFiles maxN folder, f ∈ folder) := by
  have hfoldernodup : folder.Nodup := hnames.of_map
  have hfilesnodup : (folder.filter isCacheFile).Nodup := hfoldernodup.filter _
  have hperm := perm_sortByKey FolderEntry.mtime (folder.filter isCacheFile)
  have hsortnodup : (sortByKey FolderEntry.mtime (folder.filter isCacheFile)).Nodup :=
    hperm.nodup_iff.mpr hfilesnodup
  have hsorted := sorted_sortByKey FolderEntry.mtime (folder.filter isCacheFile)
  have hlen : (sortByKey FolderEntry.mtime (folder.filter isCacheFile)).length
      = (folder.filter isCacheFile).length := hperm.length_eq
  have hmemfolder : ∀ x ∈ sortByKey FolderEntry.mtime (folder.filter isCacheFile),
      x ∈ folder ∧ isCacheFile x = true := by
    intro x hx
    have := List.mem_filter.mp (hperm.mem_iff.mp hx)
    exact ⟨this.1, this.2⟩
  have hinj : ∀ x ∈ sortByKey FolderEntry.mtime (folder.filter isCacheFile),
      ∀ y ∈ sortByKey FolderEntry.mtime (folder.filter isCacheFile),
      x.mtime = y.mtime → x = y := by
    intro x hx y hy hxy
    obtain ⟨hx1, hx2⟩ := hmemfolder x hx
    obtain ⟨hy1, hy2⟩ := hmemfolder y hy
    exact hmt x hx1 y hy1 hx2 hy2 hxy
  have hcond : (sortByKey FolderEntry.mtime (folder.filter isCacheFile)).length
      > maxN := by omega
  have hrm : removeOldFiles maxN folder
      = folder.filter (fun f =>
          !(((sortByKey FolderEntry.mtime (folder.filter isCacheFile)).take
              ((sortByKey FolderEntry.mtime (folder.filter isCacheFile)).length
                - maxN)).any (fun g => g.name == f.name))) := by
    unfold removeOldFiles
    rw [if_pos hcond]
  have hdelmem : ∀ g ∈ (sortByKey FolderEntry.mtime
      (folder.filter isCacheFile)).take
      ((sortByKey FolderEntry.mtime (folder.filter isCacheFile)).length - maxN),
      g ∈ folder ∧ isCacheFile g = true :=
    fun g hg => hmemfolder g ((List.take_sublist _ _).subset hg)
  have hanyiff : ∀ f ∈ folder,
      ((((sortByKey FolderEntry.mtime (folder.filter isCacheFile)).take
          ((sortByKey FolderEntry.mtime (folder.filter isCacheFile)).length
            - maxN)).any (fun g => g.name == f.name)) = true
        ↔ f ∈ (sortByKey FolderEntry.mtime (folder.filter isCacheFile)).take
            ((sortByKey FolderEntry.mtime (folder.filter isCacheFile)).length
              - maxN)) := by
    intro f hf
    rw [List.any_eq_true]
    constructor
    · intro ⟨g, hg, hbeq⟩
      have hgname : g.name = f.name := by simpa using hbeq
      have hgf : g = f :=
        List.inj_on_of_nodup_map hnames (hdelmem g hg).1 hf hgname
      exact hgf ▸ hg
    · intro hmem
      exact ⟨f, hmem, by simp⟩
  have hafteriff : ∀ f, f ∈ removeOldFiles maxN folder
      ↔ f ∈ folder ∧ f ∉ (sortByKey FolderEntry.mtime
          (folder.filter isCacheFile)).take
          ((sortByKey FolderEntry.mtime (folder.filter isCacheFile)).length
            - maxN) := by
    intro f
    rw [hrm, List.mem_filter]
    constructor
    · intro ⟨h1, h2⟩
      refine ⟨h1, fun hmem => ?_⟩
      rw [Bool.not_eq_true'] at h2
      exact absurd ((hanyiff f h1).mpr hmem) (by simp [h2])
    · intro ⟨h1, h2⟩
      refine ⟨h1, ?_⟩
      rw [Bool.not_eq_true']
      by_contra hany
      rw [Bool.not_eq_false] at hany
      exact h2 ((hanyiff f h1).mp hany)
  have hrank : ∀ f ∈ folder, isCacheFile f = true →
      (f ∈ (sortByKey FolderEntry.mtime (folder.filter isCacheFile)).take
          ((sortByKey FolderEntry.mtime (folder.filter isCacheFile)).length
            - maxN)
        ↔ (folder.filter isCacheFile).countP
            (fun g => decide (g.mtime < f.mtime))
          < (folder.filter isCacheFile).length - maxN) := by
    intro f hf hcache
    have hfs : f ∈ sortByKey FolderEntry.mtime (folder.filter isCacheFile) :=
      hperm.mem_iff.mpr (List.mem_filter.mpr ⟨hf, hcache⟩)
    rw [sorted_take_rank FolderEntry.mtime _ hsorted hsortnodup hinj f hfs]
    rw [hperm.countP_eq]
    rw [hlen]
  refine ⟨?_, ?_, ?_, ?_⟩
  · -- exactly maxN cache files remain
    rw [hrm, List.filter_comm]
    rw [← List.countP_eq_length_filter]
    have hc := countP_congr_mem
      (fun f => !(((sortByKey FolderEntry.mtime (folder.filter isCacheFile)).take
          ((sortByKey FolderEntry.mtime (folder.filter isCacheFile)).length
            - maxN)).any (fun g => g.name == f.name)))
      (fun f => decide (f ∉ (sortByKey FolderEntry.mtime
          (folder.filter isCacheFile)).take
          ((sortByKey FolderEntry.mtime (folder.filter isCacheFile)).length
            - maxN)))
      (folder.filter isCacheFile)
      (by
        intro a ha
        have hafolder : a ∈ folder := (List.mem_filter.mp ha).1
        by_cases hmem : a ∈ (sortByKey FolderEntry.mtime
            (folder.filter isCacheFile)).take
            ((sortByKey FolderEntry.mtime (folder.filter isCacheFile)).length
              - maxN)
        · have h1 := (hanyiff a hafolder).mpr hmem
          simp [h1, hmem]
        · have : (((sortByKey FolderEntry.mtime (folder.filter isCacheFile)).take
              ((sortByKey FolderEntry.mtime (folder.filter isCacheFile)).length
                - maxN)).any (fun g => g.name == a.name)) = false := by
            by_contra hany
            rw [Bool.not_eq_false] at hany
            exact hmem ((hanyiff a hafolder).mp hany)
          simp [this, hmem])
    rw [hc]
    rw [hperm.symm.countP_eq]
    rw [countP_not_mem_take
      ((sortByKey FolderEntry.mtime (folder.filter isCacheFile)).take
        ((sortByKey FolderEntry.mtime (folder.filter isCacheFile)).length
          - maxN))
      (sortByKey FolderEntry.mtime (folder.filter isCacheFile))
      ((sortByKey FolderEntry.mtime (folder.filter isCacheFile)).length - maxN)
      hsortnodup (by omega) rfl]
    omega
  · -- survivor characterization for cache files
    intro f hf hcache
    rw [hafteriff f, hrank f hf hcache]
    have htri := countP_trichotomy FolderEntry.mtime f.mtime
      (folder.filter isCacheFile)
    have hone : (folder.filter isCacheFile).countP
        (fun y => decide (y.mtime = f.mtime)) = 1 := by
      have := countP_key_eq_one FolderEntry.mtime f (folder.filter isCacheFile)
        hfilesnodup
        (fun a ha b hb => hmt a (List.mem_filter.mp ha).1 b (List.mem_filter.mp hb).1
          (List.mem_filter.mp ha).2 (List.mem_filter.mp hb).2)
        (List.mem_filter.mpr ⟨hf, hcache⟩)
      exact this
    constructor
    · intro ⟨_, hnot⟩
      omega
    · intro hlt2
      exact ⟨hf, fun hc2 => by omega⟩
  · -- non-cache files survive
    intro f hf hnotcache
    rw [hafteriff f]
    refine ⟨hf, fun htake => ?_⟩
    have := (hdelmem f htake).2
    rw [hnotcache] at this
    cases this
  · -- nothing added
    intro f hf
    exact ((hafteriff f).mp hf).1

/-- Witness for C8: a folder holding three cache files (mtimes 0, 5, 9)
and one unrelated file, purged with `maxNumFiles = 2`. -/
theorem claim_C8_witness :
    ((removeOldFiles 2
        [⟨cacheNameStart ++ [48], 0⟩, ⟨cacheNameStart ++ [49], 5⟩,
         ⟨cacheNameStart ++ [50], 9⟩, ⟨[120], 7⟩]).filter isCacheFile).length
      = 2
    ∧ (∀ f ∈ ([⟨cacheNameStart ++ [48], 0⟩, ⟨cacheNameStart ++ [49], 5⟩,
          ⟨cacheNameStart ++ [50], 9⟩, ⟨[120], 7⟩] : List FolderEntry),
        isCacheFile f = true →
        (f ∈ removeOldFiles 2
            [⟨cacheNameStart ++ [48], 0⟩, ⟨cacheNameStart ++ [49], 5⟩,
             ⟨cacheNameStart ++ [50], 9⟩, ⟨[120], 7⟩]
          ↔ (([⟨cacheNameStart ++ [48], 0⟩, ⟨cacheNameStart ++ [49], 5⟩,
              ⟨cacheNameStart ++ [50], 9⟩, ⟨[120], 7⟩] :
                List FolderEntry).filter isCacheFile).countP
              (fun g => decide (f.mtime < g.mtime)) < 2))
    ∧ (∀ f ∈ ([⟨cacheNameStart ++ [48], 0⟩, ⟨cacheNameStart ++ [49], 5⟩,
          ⟨cacheNameStart ++ [50], 9⟩, ⟨[120], 7⟩] : List FolderEntry),
        isCacheFile f = false →
        f ∈ removeOldFiles 2
          [⟨cacheNameStart ++ [48], 0⟩, ⟨cacheNameStart ++ [49], 5⟩,
           ⟨cacheNameStart ++ [50], 9⟩, ⟨[120], 7⟩])
    ∧ (∀ f ∈ removeOldFiles 2
          [⟨cacheNameStart ++ [48], 0⟩, ⟨cacheNameStart ++ [49], 5⟩,
           ⟨cacheNameStart ++ [50], 9⟩, ⟨[120], 7⟩],
        f ∈ ([⟨cacheNameStart ++ [48], 0⟩, ⟨cacheNameStart ++ [49], 5⟩,
          ⟨cacheNameStart ++ [50], 9⟩, ⟨[120], 7⟩] : List FolderEntry)) :=
  claim_C8 2
    [⟨cacheNameStart ++ [48], 0⟩, ⟨cacheNameStart ++ [49], 5⟩,
     ⟨cacheNameStart ++ [50], 9⟩, ⟨[120], 7⟩]
    (by decide) (by decide) (by decide)
